import Mathlib

/-!
Verification of the test-file migration script (`fix_test_files.py`).

The script is a linear pipeline of Python `re.sub` rewrites over the text of
a file.  We embed the relevant fragment of Python's regex engine shallowly:
a pattern is a list of pieces (literal, greedy `\s*`, greedy `[^x]+`, greedy
captured `(\d+)` / `([^']+)` runs), matching is greedy with backtracking as
in Python, and `sub` scans left to right replacing non-overlapping matches,
resuming after each replacement.  All definitions are executable.

Inside string literals, `\x7b`, `\x7d` and `\x27` denote the left brace, the
right brace and the apostrophe.
-/

set_option maxRecDepth 16384

namespace Fixts

/-- Text is modelled as a list of characters. -/
abbrev Str := List Char

/-- Conversion from a Lean string literal. -/
def S (s : String) : Str := s.toList

/-- Character classes occurring in the script's regexes: `\s`, `\d`,
`[^}]`, `[^']`. -/
inductive Cls where
  | space : Cls
  | digit : Cls
  | nonBrace : Cls
  | nonQuote : Cls
deriving DecidableEq

/-- Semantics of a character class (ASCII, as in the script's inputs). -/
def clsFn : Cls → Char → Bool
  | .space, c => c = ' ' || c = '\t' || c = '\n' || c = '\r' || c = Char.ofNat 11 || c = Char.ofNat 12
  | .digit, c => decide ('0' ≤ c) && decide (c ≤ '9')
  | .nonBrace, c => c ≠ Char.ofNat 125
  | .nonQuote, c => c ≠ Char.ofNat 39

/-- A regex piece: a literal, a greedy star/plus over a class, or the
captured variants (`glit` for a parenthesised literal, `gplus` for a
parenthesised plus such as `(\d+)` or `([^']+)`). -/
inductive Piece where
  | lit : Str → Piece
  | star : Cls → Piece
  | plus : Cls → Piece
  | glit : Str → Piece
  | gplus : Cls → Piece
deriving DecidableEq

/-- A pattern is a sequence of pieces. -/
abbrev Pat := List Piece

/-- A replacement-template token: literal text or a group reference. -/
inductive RTok where
  | rlit : Str → RTok
  | rgroup : Nat → RTok
deriving DecidableEq

/-- A replacement template. -/
abbrev Repl := List RTok

/-- Length of the maximal run of characters satisfying `p` at the front. -/
def maxRun (p : Char → Bool) : Str → Nat
  | [] => 0
  | c :: rest => if p c then maxRun p rest + 1 else 0

/-- The list `[hi, hi-1, ..., lo]` (empty when `hi < lo`): candidate run
lengths in the order a greedy Python quantifier tries them. -/
def downTo (lo : Nat) : Nat → List Nat
  | 0 => if lo = 0 then [0] else []
  | n + 1 => if n + 1 < lo then [] else (n + 1) :: downTo lo n

/-- Backtracking loop for an uncaptured quantifier: try each candidate run
length in order, continuing with `f` on the rest. -/
def tryLens (f : Str → Option (Nat × List Str)) (s : Str) : List Nat → Option (Nat × List Str)
  | [] => none
  | k :: ks =>
    match f (s.drop k) with
    | some (n, cs) => some (k + n, cs)
    | none => tryLens f s ks

/-- Backtracking loop for a captured quantifier: like `tryLens` but records
the consumed run as a capture. -/
def gtryLens (f : Str → Option (Nat × List Str)) (s : Str) : List Nat → Option (Nat × List Str)
  | [] => none
  | k :: ks =>
    match f (s.drop k) with
    | some (n, cs) => some (k + n, s.take k :: cs)
    | none => gtryLens f s ks

/-- Greedy backtracking matcher: the length of the match of `ps` at the
front of the string, together with the captures, or `none`.  Mirrors
Python's leftmost-greedy-with-backtracking semantics for these patterns. -/
def tryFrom : Pat → Str → Option (Nat × List Str)
  | [] => fun _ => some (0, [])
  | .lit l :: ps => fun s =>
    if l.isPrefixOf s then
      (tryFrom ps (s.drop l.length)).map (fun r => (l.length + r.1, r.2))
    else none
  | .glit l :: ps => fun s =>
    if l.isPrefixOf s then
      (tryFrom ps (s.drop l.length)).map (fun r => (l.length + r.1, l :: r.2))
    else none
  | .star c :: ps => fun s => tryLens (tryFrom ps) s (downTo 0 (maxRun (clsFn c) s))
  | .plus c :: ps => fun s => tryLens (tryFrom ps) s (downTo 1 (maxRun (clsFn c) s))
  | .gplus c :: ps => fun s => gtryLens (tryFrom ps) s (downTo 1 (maxRun (clsFn c) s))

/-- Value of one replacement token given the captures (groups count from 1). -/
def rtokVal (caps : List Str) : RTok → Str
  | .rlit l => l
  | .rgroup i => (caps.drop (i - 1)).headD []

/-- Expansion of a replacement template. -/
def applyRepl (r : Repl) (caps : List Str) : Str :=
  (r.map (rtokVal caps)).flatten

/-- Whether `needle` occurs as a contiguous substring of the argument
(Python's `in` on strings). -/
def containsStr (needle : Str) : Str → Bool
  | [] => needle.isEmpty
  | c :: rest => needle.isPrefixOf (c :: rest) || containsStr needle rest

/-- Whether a (nonempty) match of `p` starts at the front of `s`. -/
def fires (p : Pat) (s : Str) : Bool :=
  match tryFrom p s with
  | some (_ + 1, _) => true
  | _ => false

/-- Whether a nonempty match of `p` starts at some position of `s`. -/
def hasMatch (p : Pat) : Str → Bool
  | [] => fires p []
  | c :: rest => fires p (c :: rest) || hasMatch p rest

/-- Fuelled scanning loop of `re.sub`: at each position, replace the greedy
match if one starts here and resume after it, else copy one character.  The
fuel only needs to cover the length of the string. -/
def subAux (p : Pat) (r : Repl) : Nat → Str → Str
  | 0, s => s
  | _ + 1, [] => []
  | fuel + 1, c :: rest =>
    match tryFrom p (c :: rest) with
    | some (n + 1, caps) => applyRepl r caps ++ subAux p r fuel ((c :: rest).drop (n + 1))
    | _ => c :: subAux p r fuel rest

/-- Python's `re.sub` (global, non-overlapping, left to right) for the
patterns used by the script. -/
def sub (p : Pat) (r : Repl) (s : Str) : Str := subAux p r s.length s

/-! ## The script's data -/

/-- Python `str.lower` (ASCII). -/
def pyLower (s : Str) : Str := s.map Char.toLower

/-- Python `str.capitalize`: first character upper-cased, all remaining
characters lower-cased. -/
def pyCapitalize : Str → Str
  | [] => []
  | c :: rest => Char.toUpper c :: rest.map Char.toLower

/-- Python `os.path.basename`: everything after the last slash. -/
def pyBasename (p : Str) : Str := (p.reverse.takeWhile (fun c => c ≠ '/')).reverse

/-- Python `str.replace old new` for a nonempty `old`: same scan as a
literal-pattern `re.sub`. -/
def pyReplaceAll (old new s : Str) : Str := sub [.lit old] [.rlit new] s

/-- The marker token whose presence makes `process_file` skip a file. -/
def markerStr : Str := S "createEntityTestSetup"

/-- The old axios import line removed by `fix_imports`. -/
def oldAxiosLit : Str := S "import axios, \x7b AxiosInstance, AxiosResponse \x7d from \x27axios\x27;"

/-- The new axios import line that replaces it. -/
def newAxiosLit : Str := S "import \x7b AxiosInstance \x7d from \x27axios\x27;"

/-- The fixed six-symbol helper block inserted after the rewritten
axios import line. -/
def insertionBlock : Str :=
  S "import \x7b\n  createEntityTestSetup,\n  createMockItemResponse,\n  createMockItemsResponse,\n  createMockDeleteResponse,\n  resetAllMocks,\n  EntityTestSetup,\n\x7d from \x27../helpers/mockHelper\x27;"

/-- Pattern of `fix_imports` step 1 (the exact old import line). -/
def impPat1 : Pat := [.lit oldAxiosLit]

/-- Replacement of `fix_imports` step 1. -/
def impRepl1 : Repl := [.rlit newAxiosLit]

/-- Pattern of `fix_imports` step 2 (the new import line, captured). -/
def impPat2 : Pat := [.glit newAxiosLit]

/-- Replacement of `fix_imports` step 2: `\1`, a newline, then the block. -/
def impRepl2 : Repl := [.rgroup 1, .rlit ('\n' :: insertionBlock)]

/-- Source `fix_imports`: replace the old axios import by the reduced one,
then insert the helper-import block after the reduced line. -/
def fix_imports (content : Str) : Str :=
  sub impPat2 impRepl2 (sub impPat1 impRepl1 content)

/-- Pattern `await {lower_entity}\.` of `fix_method_calls` (the entity name
is assumed free of regex metacharacters, as for the script's inputs). -/
def awaitPat (lower : Str) : Pat := [.lit (S "await " ++ lower ++ S ".")]

/-- Pattern `mockAxios\.`. -/
def mockAxiosPat : Pat := [.lit (S "mockAxios.")]

/-- Pattern `expect\(mockAxios\.`. -/
def expectMockAxiosPat : Pat := [.lit (S "expect(mockAxios.")]

/-- Pattern `pageSize: (\d+)`. -/
def pageSizePat : Pat := [.lit (S "pageSize: "), .gplus .digit]

/-- Source `fix_method_calls`: rewrite awaited entity calls, bare
`mockAxios` references, and `pageSize` keys. -/
def fix_method_calls (content : Str) (entity_name : Str) : Str :=
  let lower_entity := pyLower entity_name
  let c1 := sub (awaitPat lower_entity) [.rlit (S "await setup.entity.")] content
  let c2 := sub mockAxiosPat [.rlit (S "setup.mockAxios.")] c1
  let c3 := sub expectMockAxiosPat [.rlit (S "expect(setup.mockAxios.")] c2
  sub pageSizePat [.rlit (S "MaxRecords: "), .rgroup 1] c3

/-- Pattern of the list-with-data mock-response shape. -/
def mockListPat : Pat :=
  [.lit (S "mockAxios.get.mockResolvedValueOnce(\x7b"), .star .space,
   .lit (S "data: \x7b items: mockData \x7d"), .plus .nonBrace, .lit (S "\x7d);")]

/-- Pattern of the empty-list mock-response shape. -/
def mockEmptyPat : Pat :=
  [.lit (S "mockAxios.get.mockResolvedValueOnce(\x7b"), .star .space,
   .lit (S "data: \x7b items: [] \x7d"), .plus .nonBrace, .lit (S "\x7d);")]

/-- Pattern of the single-item mock-response shape. -/
def mockSinglePat : Pat :=
  [.lit (S "mockAxios.get.mockResolvedValueOnce(\x7b"), .star .space,
   .lit (S "data: \x7b item: mockData \x7d"), .plus .nonBrace, .lit (S "\x7d);")]

/-- Pattern of the create (status 201) mock-response shape. -/
def mockCreatePat : Pat :=
  [.lit (S "mockAxios.post.mockResolvedValueOnce(\x7b"), .star .space,
   .lit (S "data: \x7b item: mockResponse \x7d"), .plus .nonBrace,
   .lit (S "status: 201"), .plus .nonBrace, .lit (S "\x7d);")]

/-- Pattern of the update (put) mock-response shape. -/
def mockPutPat : Pat :=
  [.lit (S "mockAxios.put.mockResolvedValueOnce(\x7b"), .star .space,
   .lit (S "data: \x7b item: mockResponse \x7d"), .plus .nonBrace, .lit (S "\x7d);")]

/-- Pattern of the patch mock-response shape. -/
def mockPatchPat : Pat :=
  [.lit (S "mockAxios.patch.mockResolvedValueOnce(\x7b"), .star .space,
   .lit (S "data: \x7b item: mockResponse \x7d"), .plus .nonBrace, .lit (S "\x7d);")]

/-- Pattern of the delete mock-response shape. -/
def mockDeletePat : Pat :=
  [.lit (S "mockAxios.delete.mockResolvedValueOnce(\x7b"), .star .space,
   .lit (S "data: \x7b\x7d"), .plus .nonBrace, .lit (S "\x7d);")]

/-- Source `fix_mock_responses`: the seven verb-and-shape rewrites. -/
def fix_mock_responses (content : Str) : Str :=
  let c1 := sub mockListPat
    [.rlit (S "setup.mockAxios.post.mockResolvedValueOnce(\n        createMockItemsResponse(mockData)\n      );")] content
  let c2 := sub mockEmptyPat
    [.rlit (S "setup.mockAxios.post.mockResolvedValueOnce(\n        createMockItemsResponse([])\n      );")] c1
  let c3 := sub mockSinglePat
    [.rlit (S "setup.mockAxios.get.mockResolvedValueOnce(\n        createMockItemResponse(mockData)\n      );")] c2
  let c4 := sub mockCreatePat
    [.rlit (S "setup.mockAxios.post.mockResolvedValueOnce(\n        createMockItemResponse(mockResponse, 201)\n      );")] c3
  let c5 := sub mockPutPat
    [.rlit (S "setup.mockAxios.put.mockResolvedValueOnce(\n        createMockItemResponse(mockResponse)\n      );")] c4
  let c6 := sub mockPatchPat
    [.rlit (S "setup.mockAxios.patch.mockResolvedValueOnce(\n        createMockItemResponse(mockResponse)\n      );")] c5
  sub mockDeletePat
    [.rlit (S "setup.mockAxios.delete.mockResolvedValueOnce(\n        createMockDeleteResponse()\n      );")] c6

/-- Pattern of the GET-`/query` assertion rewrite of
`fix_test_expectations` (the path is the captured `[^']+`). -/
def expectQueryPat : Pat :=
  [.lit (S "expect(setup.mockAxios.get).toHaveBeenCalledWith(\x27"), .gplus .nonQuote,
   .lit (S "/query\x27, \x7b"), .star .space, .lit (S "params: \x7b"), .star .space,
   .lit (S "filter:")]

/-- Replacement of the GET-`/query` assertion rewrite. -/
def expectQueryRepl : Repl :=
  [.rlit (S "expect(setup.mockAxios.post).toHaveBeenCalledWith(\x27"), .rgroup 1,
   .rlit (S "/query\x27, \x7b\n        filter:")]

/-- Pattern `params: \{\s*filter:` of the unconditional wrapper strip. -/
def paramsFilterPat : Pat := [.lit (S "params: \x7b"), .star .space, .lit (S "filter:")]

/-- Pattern `}\s*\}\);` of the unconditional brace collapse. -/
def braceClosePat : Pat := [.lit (S "\x7d"), .star .space, .lit (S "\x7d);")]

/-- Source `fix_test_expectations`: the assertion rewrite followed by the
two unconditional cleanup substitutions. -/
def fix_test_expectations (content : Str) : Str :=
  let c1 := sub expectQueryPat expectQueryRepl content
  let c2 := sub paramsFilterPat [.rlit (S "filter:")] c1
  sub braceClosePat [.rlit (S "\x7d);")] c2

/-- Source `fix_describe_setup`: the function computes a pattern and a
replacement block but deliberately returns its `content` argument
unchanged (the source comment reads "This is complex, let's use a simpler
approach"). -/
def fix_describe_setup (content : Str) (_entity_class : Str) : Str := content

/-- Source `get_entity_name_from_file`: basename, drop every occurrence of
`.test.ts`, then Python-capitalize. -/
def get_entity_name_from_file (filepath : Str) : Str :=
  pyCapitalize (pyReplaceAll (S ".test.ts") [] (pyBasename filepath))

/-- The four rewrite stages of `process_file` in source order. -/
def rewritePipeline (filepath content : Str) : Str :=
  fix_test_expectations (fix_mock_responses
    (fix_method_calls (fix_imports content) (get_entity_name_from_file filepath)))

/-- Source `process_file` on the in-memory content: `none` models the
early return with no write (marker present), `some c` models writing `c`
back. -/
def process_file (filepath : Str) (content : Str) : Option Str :=
  if containsStr markerStr content then none
  else some (rewritePipeline filepath content)

/-- The on-disk content after one run of `process_file` on a file. -/
def afterRun (filepath : Str) (content : Str) : Str :=
  (process_file filepath content).getD content

/-! ## The batch driver -/

/-- The static exclusion set of `main` ("files already fixed"). -/
def fixed_files : List String :=
  ["actiontypes.test.ts", "pricelistservices.test.ts", "ticketcharges.test.ts",
   "timeoffrequests.test.ts", "companies.test.ts", "quotes.test.ts"]

/-- The fixed directory prefix used by `main`. -/
def testDir : String := "test/entities/"

/-- The file names `main` processes: glob results minus the exclusion set,
capped at the first five. -/
def mainSelect (files : List String) : List String :=
  (files.filter (fun f => f ∉ fixed_files)).take 5

/-- Point update of the modelled file store. -/
def updateStore (st : String → Str) (f : String) (c : Str) : String → Str :=
  fun g => if g = f then c else st g

/-- One batch run of `main` over the store: process each selected file in
order. -/
def runMain (st : String → Str) (files : List String) : String → Str :=
  (mainSelect files).foldl (fun acc f => updateStore acc f (afterRun (S (testDir ++ f)) (acc f))) st

/-- Batch run with a read oracle: `readErr f = some e` means reading `f`
raises I/O error `e`; the run then stops with the store as it was (no
write to `f`, no later file processed). -/
def runFiles (readErr : String → Option Nat) (st : String → Str) : List String → ((String → Str) × Option Nat)
  | [] => (st, none)
  | f :: fs =>
    match readErr f with
    | some e => (st, some e)
    | none => runFiles readErr (updateStore st f (afterRun (S (testDir ++ f)) (st f))) fs

/-- Batch run of `main` under the read oracle. -/
def runMainE (readErr : String → Option Nat) (st : String → Str) (files : List String) :
    (String → Str) × Option Nat :=
  runFiles readErr st (mainSelect files)

/-! ## Matching semantics and the protected-window checker

Used to prove that the marker substring inserted by `fix_imports` survives
every later rewrite stage: we fix a window `vWindow` (the tail of the
rewritten import line followed by the inserted helper block), show no
match of any later pattern can overlap any position of the window, and
conclude the window — hence the marker — is copied verbatim by each scan. -/

/-- Declarative semantics of a pattern: `Matches ps s` holds when `s`
decomposes into consecutive segments realising the pieces (captures are
irrelevant here). -/
inductive Matches : Pat → Str → Prop where
  | nil : Matches [] []
  | lit (l : Str) (ps : Pat) (s : Str) : Matches ps s → Matches (.lit l :: ps) (l ++ s)
  | glit (l : Str) (ps : Pat) (s : Str) : Matches ps s → Matches (.glit l :: ps) (l ++ s)
  | star (c : Cls) (w : Str) (ps : Pat) (s : Str) :
      (∀ x ∈ w, clsFn c x = true) → Matches ps s → Matches (.star c :: ps) (w ++ s)
  | plus (c : Cls) (w : Str) (ps : Pat) (s : Str) :
      w ≠ [] → (∀ x ∈ w, clsFn c x = true) → Matches ps s → Matches (.plus c :: ps) (w ++ s)
  | gplus (c : Cls) (w : Str) (ps : Pat) (s : Str) :
      w ≠ [] → (∀ x ∈ w, clsFn c x = true) → Matches ps s → Matches (.gplus c :: ps) (w ++ s)

/-- Two strings are compatible when one is a prefix of the other, i.e.
they agree on all common positions. -/
def compat (u w : Str) : Prop := u <+: w ∨ w <+: u

/-- Boolean version of `compat`. -/
def compatB (u w : Str) : Bool := u.isPrefixOf w || w.isPrefixOf u

/-- Whether a single piece can consume at least one character of
unconstrained text (every class has a satisfying character). -/
def pieceCan : Piece → Bool
  | .lit l => decide (l ≠ [])
  | .glit l => decide (l ≠ [])
  | .star _ => true
  | .plus _ => true
  | .gplus _ => true

/-- Whether a pattern can consume at least one character of unconstrained
text. -/
def canConsume (ps : Pat) : Bool := ps.any pieceCan

/-- Abstract matcher against the fixed window `V`: can the pattern match
some string placed at window offset `i`, where characters at offsets below
`V.length` are forced to equal `V`'s and offsets beyond are unconstrained?
The flag `need` requires at least one character still to be consumed. -/
def okFromN (V : Str) : Pat → Nat → Bool → Bool
  | [] => fun _ need => !need
  | .lit l :: ps => fun i need =>
    if V.length ≤ i then !need || canConsume (.lit l :: ps)
    else compatB l (V.drop i) && okFromN V ps (i + l.length) (need && decide (l = []))
  | .glit l :: ps => fun i need =>
    if V.length ≤ i then !need || canConsume (.glit l :: ps)
    else compatB l (V.drop i) && okFromN V ps (i + l.length) (need && decide (l = []))
  | .star c :: ps => fun i need =>
    if V.length ≤ i then !need || canConsume (.star c :: ps)
    else (downTo 0 (maxRun (clsFn c) (V.drop i))).any
      (fun k => okFromN V ps (i + k) (need && decide (k = 0)))
  | .plus c :: ps => fun i need =>
    if V.length ≤ i then !need || canConsume (.plus c :: ps)
    else (downTo 1 (maxRun (clsFn c) (V.drop i))).any (fun k => okFromN V ps (i + k) false)
  | .gplus c :: ps => fun i need =>
    if V.length ≤ i then !need || canConsume (.gplus c :: ps)
    else (downTo 1 (maxRun (clsFn c) (V.drop i))).any (fun k => okFromN V ps (i + k) false)

/-- Suspended continuations of one piece after part of it was consumed to
the left of the window. -/
def midStates : Piece → Pat → List Pat
  | .lit l, ps => (List.range' 1 (l.length - 1)).map (fun j => .lit (l.drop j) :: ps)
  | .glit l, ps => (List.range' 1 (l.length - 1)).map (fun j => .lit (l.drop j) :: ps)
  | .star c, ps => [.star c :: ps]
  | .plus c, ps => [.star c :: ps]
  | .gplus c, ps => [.star c :: ps]

/-- All continuations a match that started left of the window can be in
when it reaches window offset 0. -/
def entryStates : Pat → List Pat
  | [] => []
  | p :: ps => midStates p ps ++ (ps :: entryStates ps)

/-- Decidable check that no match of the pattern, wherever it starts, can
overlap any position of the window `V` embedded in arbitrary flanks. -/
def noTouchB (P : Pat) (V : Str) : Bool :=
  (List.range V.length).all (fun i => !(okFromN V P i true)) &&
  (entryStates P).all (fun st => !(okFromN V st 0 true))

/-- The stable text preceding the protected window: the head of the
rewritten import line. -/
def importHead : Str := S "import \x7b AxiosInstance "

/-- The protected window: the tail of the rewritten import line (closing
brace onward), the newline, and the whole inserted helper block — it
contains the marker token. -/
def vWindow : Str := S "\x7d from \x27axios\x27;\n" ++ insertionBlock

/-! ## Generic lemmas about the engine -/

/-- Scanning the empty string produces the empty string. -/
theorem subAux_nil (p : Pat) (r : Repl) : ∀ fuel, subAux p r fuel [] = [] := by
  intro fuel
  cases fuel <;> rfl

/-- A single-literal pattern matches exactly when the literal is a prefix,
consuming it and capturing nothing. -/
theorem tryFrom_single_lit (l s : Str) :
    tryFrom [.lit l] s = if l.isPrefixOf s then some (l.length, []) else none := by
  by_cases h : l.isPrefixOf s <;> simp [tryFrom, h]

/-- When no (nonempty) match of `p` starts anywhere in `s`, the scan copies
`s` unchanged, whatever the fuel. -/
theorem subAux_id_of_no_match (p : Pat) (r : Repl) :
    ∀ (s : Str) (fuel : Nat), hasMatch p s = false → subAux p r fuel s = s := by
  intro s
  induction s with
  | nil => intro fuel _; exact subAux_nil p r fuel
  | cons c rest ih =>
    intro fuel h
    rw [hasMatch, Bool.or_eq_false_iff] at h
    cases fuel with
    | zero => rfl
    | succ f =>
      cases htf : tryFrom p (c :: rest) with
      | none =>
        simp only [subAux, htf]
        exact congrArg (c :: ·) (ih f h.2)
      | some pr =>
        obtain ⟨n, caps⟩ := pr
        cases n with
        | zero =>
          simp only [subAux, htf]
          exact congrArg (c :: ·) (ih f h.2)
        | succ m =>
          exfalso
          have : fires p (c :: rest) = true := by simp [fires, htf]
          rw [h.1] at this
          exact Bool.false_ne_true this

/-- `re.sub` is the identity when the pattern matches nowhere. -/
theorem sub_id_of_no_match (p : Pat) (r : Repl) (s : Str) (h : hasMatch p s = false) :
    sub p r s = s :=
  subAux_id_of_no_match p r s s.length h

/-- Replacing a nonempty literal by nothing strips a final occurrence when
no occurrence starts anywhere earlier. -/
theorem subAux_strip_tail (old : Str) (hne : old ≠ []) :
    ∀ (b : Str) (fuel : Nat), (b ++ old).length ≤ fuel →
    (∀ q, q < b.length → old.isPrefixOf (List.drop q (b ++ old)) = false) →
    subAux [.lit old] [.rlit []] fuel (b ++ old) = b := by
  intro b
  induction b with
  | nil =>
    intro fuel hf _
    obtain ⟨o, os, rfl⟩ : ∃ o os, old = o :: os := by
      cases old with
      | nil => exact absurd rfl hne
      | cons o os => exact ⟨o, os, rfl⟩
    simp only [List.nil_append] at hf ⊢
    cases fuel with
    | zero => simp at hf
    | succ f =>
      have hpre : (o :: os).isPrefixOf (o :: os) = true := by
        simp [ List.isPrefixOf_iff_prefix]
      simp only [subAux, tryFrom_single_lit, hpre, if_true, List.length_cons]
      have hdrop : List.drop (os.length + 1) (o :: os) = [] := by
        have := List.drop_length (o :: os)
        simpa using this
      rw [hdrop, subAux_nil]
      rfl
  | cons c b' ih =>
    intro fuel hf h
    have h0 : old.isPrefixOf (c :: (b' ++ old)) = false := by
      have h' := h 0 (by simp)
      simp only [List.drop_zero, List.cons_append] at h'
      exact h'
    simp only [List.cons_append] at hf ⊢
    cases fuel with
    | zero => simp at hf
    | succ f =>
      simp only [subAux, tryFrom_single_lit, h0, if_false]
      refine congrArg (c :: ·) (ih f ?_ ?_)
      · simp only [List.length_cons] at hf
        omega
      · intro q hq
        have h' := h (q + 1) (by simp; omega)
        simp only [List.drop_succ_cons, List.cons_append] at h'
        exact h'

/-- Python `replace old -> empty` on `b ++ old` returns `b` when the only
occurrence of `old` is the final one. -/
theorem pyReplaceAll_strip_tail (old b : Str) (hne : old ≠ [])
    (h : ∀ q, q < b.length → old.isPrefixOf (List.drop q (b ++ old)) = false) :
    pyReplaceAll old [] (b ++ old) = b :=
  subAux_strip_tail old hne b (b ++ old).length le_rfl h

/-- A `takeWhile` over elements that all satisfy the predicate is the
identity. -/
theorem takeWhile_all {α : Type} (p : α → Bool) :
    ∀ l : List α, (∀ c ∈ l, p c = true) → l.takeWhile p = l := by
  intro l
  induction l with
  | nil => intro _; rfl
  | cons c rest ih =>
    intro h
    have hc := h c (List.mem_cons_self c rest)
    simp [List.takeWhile, hc, ih (fun x hx => h x (List.mem_cons_of_mem c hx))]

/-- `os.path.basename` is the identity on slash-free paths. -/
theorem pyBasename_id (p : Str) (h : ∀ c ∈ p, c ≠ '/') : pyBasename p = p := by
  unfold pyBasename
  rw [takeWhile_all _ p.reverse, List.reverse_reverse]
  intro c hc
  have : c ∈ p := List.mem_reverse.mp hc
  simp [h c this]

/-- Folding per-file store updates over a list never changes a file not in
the list. -/
theorem foldl_updateStore_not_mem :
    ∀ (L : List String) (st : String → Str) (f : String), f ∉ L →
    (L.foldl (fun acc g => updateStore acc g (afterRun (S (testDir ++ g)) (acc g))) st) f = st f := by
  intro L
  induction L with
  | nil => intro st f _; rfl
  | cons g L' ih =>
    intro st f hf
    have hne : f ≠ g := fun hfg => hf (hfg ▸ List.mem_cons_self g L')
    have hf' : f ∉ L' := fun hm => hf (List.mem_cons_of_mem g hm)
    simp only [List.foldl_cons]
    rw [ih _ f hf']
    simp [updateStore, hne]

/-- A file name in the exclusion set never appears among the selected
files, whatever the directory listing. -/
theorem mainSelect_excludes (f : String) (hf : f ∈ fixed_files) (files : List String) :
    f ∉ mainSelect files := by
  intro hmem
  unfold mainSelect at hmem
  have h1 := List.take_subset 5 _ hmem
  have h2 := (List.mem_filter.mp h1).2
  simp only [decide_eq_true_eq] at h2
  exact h2 hf

/-- Abort behaviour of the per-file loop: a failing read stops the run,
leaves the failing file and every later unprocessed file at its pre-run
content. -/
theorem runFiles_abort (readErr : String → Option Nat) (e : Nat) (f : String) :
    ∀ (pre : List String) (st : String → Str) (post : List String),
    (∀ g ∈ pre, readErr g = none) → readErr f = some e → f ∉ pre →
    (runFiles readErr st (pre ++ f :: post)).2 = some e ∧
    (runFiles readErr st (pre ++ f :: post)).1 f = st f ∧
    ∀ g ∈ post, g ∉ pre → g ≠ f → (runFiles readErr st (pre ++ f :: post)).1 g = st g := by
  intro pre
  induction pre with
  | nil =>
    intro st post _ h2 _
    refine ⟨?_, ?_, ?_⟩ <;> simp only [List.nil_append, runFiles, h2]
    · intro g _ _ _; trivial
  | cons p pre' ih =>
    intro st post h1 h2 h3
    have hp : readErr p = none := h1 p (List.mem_cons_self p pre')
    have h1' : ∀ g ∈ pre', readErr g = none := fun g hg => h1 g (List.mem_cons_of_mem p hg)
    have h3' : f ∉ pre' := fun hm => h3 (List.mem_cons_of_mem p hm)
    have hfp : f ≠ p := fun hfp => h3 (hfp ▸ List.mem_cons_self p pre')
    simp only [List.cons_append, runFiles, hp, List.append_eq]
    obtain ⟨ih1, ih2, ih3⟩ := ih (updateStore st p (afterRun (S (testDir ++ p)) (st p))) post h1' h2 h3'
    refine ⟨ih1, ?_, ?_⟩
    · rw [ih2]; simp [updateStore, hfp]
    · intro g hg hgpre hgf
      have hgp : g ≠ p := fun hgp => hgpre (hgp ▸ List.mem_cons_self p pre')
      have hgpre' : g ∉ pre' := fun hm => hgpre (List.mem_cons_of_mem p hm)
      rw [ih3 g hg hgpre' hgf]
      simp [updateStore, hgp]

/-! ## Soundness of the matcher with respect to `Matches` -/

/-- Membership in the countdown list. -/
theorem mem_downTo {k lo hi : Nat} : k ∈ downTo lo hi ↔ lo ≤ k ∧ k ≤ hi := by
  induction hi with
  | zero =>
    by_cases h : lo = 0 <;> simp [downTo, h] <;> omega
  | succ n ihn =>
    by_cases h : n + 1 < lo
    · simp [downTo, h]; omega
    · simp [downTo, h, ihn]; omega

/-- The maximal run never exceeds the length. -/
theorem maxRun_le_length (p : Char → Bool) : ∀ l : Str, maxRun p l ≤ l.length := by
  intro l
  induction l with
  | nil => simp [maxRun]
  | cons c t ih =>
    by_cases h : p c <;> simp [maxRun, h] <;> omega

/-- Characters within the maximal run satisfy the predicate. -/
theorem maxRun_take_sat (p : Char → Bool) :
    ∀ (l : Str) (k : Nat), k ≤ maxRun p l → ∀ x ∈ l.take k, p x = true := by
  intro l
  induction l with
  | nil => intro k _ x hx; simp at hx
  | cons c t ih =>
    intro k hk x hx
    by_cases h : p c
    · rw [maxRun, if_pos h] at hk
      cases k with
      | zero => simp at hx
      | succ k' =>
        rw [List.take_succ_cons] at hx
        rcases List.mem_cons.mp hx with rfl | hx'
        · exact h
        · exact ih k' (by omega) x hx'
    · rw [maxRun, if_neg h] at hk
      interval_cases k
      simp at hx

/-- A fully satisfying run bounds the maximal run from below. -/
theorem maxRun_ge_of_sat (p : Char → Bool) :
    ∀ (l : Str) (k : Nat), k ≤ l.length → (∀ x ∈ l.take k, p x = true) → k ≤ maxRun p l := by
  intro l
  induction l with
  | nil => intro k hk _; simp at hk; omega
  | cons c t ih =>
    intro k hk hsat
    cases k with
    | zero => omega
    | succ k' =>
      have hc : p c = true := hsat c (by simp [List.take_succ_cons])
      rw [maxRun, if_pos hc]
      have : k' ≤ maxRun p t := by
        refine ih k' (by simp at hk; omega) ?_
        intro x hx
        exact hsat x (by rw [List.take_succ_cons]; exact List.mem_cons_of_mem c hx)
      omega

/-- `compatB` decides `compat`. -/
theorem compatB_iff {u w : Str} : compatB u w = true ↔ compat u w := by
  simp [compatB, compat, List.isPrefixOf_iff_prefix]

/-- Compatibility is inherited by prefixes on the left. -/
theorem compat_mono_pre {u' u w : Str} (hp : u' <+: u) (h : compat u w) : compat u' w := by
  rcases h with h | h
  · exact Or.inl (hp.trans h)
  · exact List.prefix_or_prefix_of_prefix hp h

/-- Dropping a shared left part preserves compatibility. -/
theorem compat_append_drop {u v w : Str} (h : compat (u ++ v) w) :
    compat v (w.drop u.length) := by
  rcases h with ⟨r, hr⟩ | ⟨r, hr⟩
  · subst hr
    rw [List.append_assoc, List.drop_left]
    exact Or.inl ⟨r, rfl⟩
  · rcases le_or_lt w.length u.length with hle | hlt
    · rw [List.drop_eq_nil_of_le hle]
      exact Or.inr List.nil_prefix
    · have huw : u <+: w := by
        rcases List.prefix_or_prefix_of_prefix (⟨v, rfl⟩ : u <+: u ++ v)
            (⟨r, hr⟩ : w <+: u ++ v) with h' | h'
        · exact h'
        · exact absurd h'.length_le (by omega)
      obtain ⟨w', rfl⟩ := huw
      rw [List.drop_left]
      have hv : w' ++ r = v := by
        rw [List.append_assoc] at hr
        exact List.append_cancel_left hr
      exact Or.inr ⟨r, hv⟩

/-- A `take` of an extended list is compatible with the base list. -/
theorem compat_take_append (w y : Str) (m : Nat) : compat ((w ++ y).take m) w := by
  rcases le_or_lt m w.length with hle | hlt
  · rw [List.take_append_of_le_length hle]
    exact Or.inl ( List.take_prefix m w)
  · rw [List.take_append_eq_append_take, List.take_of_length_le (by omega)]
    exact Or.inr ⟨y.take (m - w.length), rfl⟩

/-- Compatible strings agree on common-length takes. -/
theorem compat_take_eq {u w : Str} (h : compat u w) (m : Nat)
    (hu : m ≤ u.length) (hw : m ≤ w.length) : u.take m = w.take m := by
  rcases h with ⟨r, rfl⟩ | ⟨r, rfl⟩
  · rw [List.take_append_of_le_length hu]
  · rw [List.take_append_of_le_length hw]

/-- Soundness of the uncaptured backtracking loop. -/
theorem tryLens_sound (f : Str → Option (Nat × List Str)) (s : Str) :
    ∀ (ks : List Nat) (n : Nat) (caps : List Str), tryLens f s ks = some (n, caps) →
    ∃ k ∈ ks, ∃ m, f (s.drop k) = some (m, caps) ∧ n = k + m := by
  intro ks
  induction ks with
  | nil => intro n caps h; simp [tryLens] at h
  | cons k ks' ih =>
    intro n caps h
    rw [tryLens] at h
    cases hf : f (s.drop k) with
    | none =>
      rw [hf] at h
      obtain ⟨k', hk', m, hm, hn⟩ := ih n caps h
      exact ⟨k', List.mem_cons_of_mem k hk', m, hm, hn⟩
    | some r =>
      rw [hf] at h
      obtain ⟨m, cs⟩ := r
      injection h with h'
      injection h' with h1 h2
      exact ⟨k, List.mem_cons_self k ks', m, by rw [hf, h2], h1.symm⟩

/-- Soundness of the captured backtracking loop. -/
theorem gtryLens_sound (f : Str → Option (Nat × List Str)) (s : Str) :
    ∀ (ks : List Nat) (n : Nat) (caps : List Str), gtryLens f s ks = some (n, caps) →
    ∃ k ∈ ks, ∃ m cs, f (s.drop k) = some (m, cs) ∧ n = k + m ∧ caps = s.take k :: cs := by
  intro ks
  induction ks with
  | nil => intro n caps h; simp [gtryLens] at h
  | cons k ks' ih =>
    intro n caps h
    rw [gtryLens] at h
    cases hf : f (s.drop k) with
    | none =>
      rw [hf] at h
      obtain ⟨k', hk', m, cs, hm, hn, hc⟩ := ih n caps h
      exact ⟨k', List.mem_cons_of_mem k hk', m, cs, hm, hn, hc⟩
    | some r =>
      rw [hf] at h
      obtain ⟨m, cs⟩ := r
      injection h with h'
      injection h' with h1 h2
      exact ⟨k, List.mem_cons_self k ks', m, cs, hf, h1.symm, h2.symm⟩

/-- The matcher is sound: a reported match length yields a `Matches`
decomposition of the consumed prefix, which never exceeds the input. -/
theorem tryFrom_sound : ∀ (ps : Pat) (s : Str) (n : Nat) (caps : List Str),
    tryFrom ps s = some (n, caps) → Matches ps (s.take n) ∧ n ≤ s.length := by
  intro ps
  induction ps with
  | nil =>
    intro s n caps h
    simp only [tryFrom] at h
    injection h with h'
    injection h' with h1 h2
    refine ⟨?_, by omega⟩
    rw [← h1, List.take_zero]
    exact Matches.nil
  | cons p ps ih =>
    cases p with
    | lit l =>
      intro s n caps h
      simp only [tryFrom] at h
      by_cases hpre : l.isPrefixOf s
      · rw [if_pos hpre] at h
        obtain ⟨t, rfl⟩ : ∃ t, s = l ++ t := by
          obtain ⟨t, ht⟩ := List.isPrefixOf_iff_prefix.mp hpre
          exact ⟨t, ht.symm⟩
        rw [List.drop_left] at h
        cases h2 : tryFrom ps t with
        | none => rw [h2] at h; simp at h
        | some r =>
          rw [h2] at h
          obtain ⟨m, cs⟩ := r
          simp only [Option.map_some'] at h
          injection h with h'
          injection h' with h1 h2'
          obtain ⟨hM, hle⟩ := ih t m cs h2
          constructor
          · rw [← h1, List.take_append_eq_append_take,
              List.take_of_length_le (by omega), Nat.add_sub_cancel_left]
            exact Matches.lit l ps _ hM
          · rw [← h1]; simp; omega
      · rw [if_neg hpre] at h; simp at h
    | glit l =>
      intro s n caps h
      simp only [tryFrom] at h
      by_cases hpre : l.isPrefixOf s
      · rw [if_pos hpre] at h
        obtain ⟨t, rfl⟩ : ∃ t, s = l ++ t := by
          obtain ⟨t, ht⟩ := List.isPrefixOf_iff_prefix.mp hpre
          exact ⟨t, ht.symm⟩
        rw [List.drop_left] at h
        cases h2 : tryFrom ps t with
        | none => rw [h2] at h; simp at h
        | some r =>
          rw [h2] at h
          obtain ⟨m, cs⟩ := r
          simp only [Option.map_some'] at h
          injection h with h'
          injection h' with h1 h2'
          obtain ⟨hM, hle⟩ := ih t m cs h2
          constructor
          · rw [← h1, List.take_append_eq_append_take,
              List.take_of_length_le (by omega), Nat.add_sub_cancel_left]
            exact Matches.glit l ps _ hM
          · rw [← h1]; simp; omega
      · rw [if_neg hpre] at h; simp at h
    | star c =>
      intro s n caps h
      simp only [tryFrom] at h
      obtain ⟨k, hk, m, hf, rfl⟩ := tryLens_sound _ _ _ _ _ h
      have hkb := (mem_downTo.mp hk).2
      obtain ⟨hM, hle⟩ := ih _ m caps hf
      have hkl : k ≤ s.length := le_trans hkb (maxRun_le_length _ s)
      constructor
      · rw [List.take_add]
        exact Matches.star c _ ps _ (maxRun_take_sat _ s k hkb) hM
      · rw [List.length_drop] at hle; omega
    | plus c =>
      intro s n caps h
      simp only [tryFrom] at h
      obtain ⟨k, hk, m, hf, rfl⟩ := tryLens_sound _ _ _ _ _ h
      obtain ⟨hk1, hkb⟩ := mem_downTo.mp hk
      obtain ⟨hM, hle⟩ := ih _ m caps hf
      have hkl : k ≤ s.length := le_trans hkb (maxRun_le_length _ s)
      constructor
      · rw [List.take_add]
        refine Matches.plus c _ ps _ ?_ (maxRun_take_sat _ s k hkb) hM
        apply List.ne_nil_of_length_pos
        rw [List.length_take]
        omega
      · rw [List.length_drop] at hle; omega
    | gplus c =>
      intro s n caps h
      simp only [tryFrom] at h
      obtain ⟨k, hk, m, cs, hf, rfl, rfl⟩ := gtryLens_sound _ _ _ _ _ h
      obtain ⟨hk1, hkb⟩ := mem_downTo.mp hk
      obtain ⟨hM, hle⟩ := ih _ m cs hf
      have hkl : k ≤ s.length := le_trans hkb (maxRun_le_length _ s)
      constructor
      · rw [List.take_add]
        refine Matches.gplus c _ ps _ ?_ (maxRun_take_sat _ s k hkb) hM
        apply List.ne_nil_of_length_pos
        rw [List.length_take]
        omega
      · rw [List.length_drop] at hle; omega

/-- Unfolding of `canConsume` over a cons. -/
theorem canConsume_cons (p : Piece) (ps : Pat) :
    canConsume (p :: ps) = (pieceCan p || canConsume ps) := rfl

/-- A nonempty matched string means the pattern can consume a character. -/
theorem canConsume_of_matches : ∀ {ps : Pat} {s : Str}, Matches ps s → s ≠ [] →
    canConsume ps = true := by
  intro ps s h
  induction h with
  | nil => intro hne; exact absurd rfl hne
  | lit l ps s _ ih =>
    intro hne
    rw [canConsume_cons]
    by_cases hl : l = []
    · subst hl
      simp only [List.nil_append] at hne
      simp [pieceCan, ih hne]
    · simp [pieceCan, hl]
  | glit l ps s _ ih =>
    intro hne
    rw [canConsume_cons]
    by_cases hl : l = []
    · subst hl
      simp only [List.nil_append] at hne
      simp [pieceCan, ih hne]
    · simp [pieceCan, hl]
  | star c w ps s _ _ _ => intro _; rw [canConsume_cons]; simp [pieceCan]
  | plus c w ps s _ _ _ _ => intro _; rw [canConsume_cons]; simp [pieceCan]
  | gplus c w ps s _ _ _ _ => intro _; rw [canConsume_cons]; simp [pieceCan]

/-- In the unconstrained zone, the abstract matcher with a cleared flag
always succeeds. -/
theorem okFromN_free_false (V : Str) :
    ∀ (ps : Pat) (j : Nat), V.length ≤ j → okFromN V ps j false = true := by
  intro ps j hj
  cases ps with
  | nil => rfl
  | cons p ps => cases p <;> simp [okFromN, hj]

/-- Completeness of the abstract matcher: a real match whose string is
placed compatibly at window offset `i` (and consumes a character when
`need` demands it) is accepted. -/
theorem matches_ok (V : Str) : ∀ {ps : Pat} {s : Str}, Matches ps s →
    ∀ (i : Nat) (need : Bool), compat s (V.drop i) → (need = true → s ≠ []) →
    okFromN V ps i need = true := by
  intro ps s h
  induction h with
  | nil =>
    intro i need _ hneed
    cases need with
    | false => rfl
    | true => exact absurd rfl (hneed rfl)
  | lit l ps s hm ih =>
    intro i need hcomp hneed
    by_cases hi : V.length ≤ i
    · simp only [okFromN, if_pos hi]
      cases need with
      | false => simp
      | true =>
        simp only [Bool.not_true, Bool.false_or]
        rw [canConsume_cons]
        by_cases hl : l = []
        · subst hl
          have hs : s ≠ [] := by simpa using hneed rfl
          simp [pieceCan, canConsume_of_matches hm hs]
        · simp [pieceCan, hl]
    · simp only [okFromN, if_neg hi]
      rw [Bool.and_eq_true]
      refine ⟨compatB_iff.mpr (compat_mono_pre ⟨s, rfl⟩ hcomp), ?_⟩
      have hrec : compat s (V.drop (i + l.length)) := by
        have hcd := compat_append_drop hcomp
        rwa [List.drop_drop] at hcd
      refine ih (i + l.length) _ hrec ?_
      intro hh
      rw [Bool.and_eq_true] at hh
      have hl : l = [] := by simpa using hh.2
      subst hl
      simpa using hneed hh.1
  | glit l ps s hm ih =>
    intro i need hcomp hneed
    by_cases hi : V.length ≤ i
    · simp only [okFromN, if_pos hi]
      cases need with
      | false => simp
      | true =>
        simp only [Bool.not_true, Bool.false_or]
        rw [canConsume_cons]
        by_cases hl : l = []
        · subst hl
          have hs : s ≠ [] := by simpa using hneed rfl
          simp [pieceCan, canConsume_of_matches hm hs]
        · simp [pieceCan, hl]
    · simp only [okFromN, if_neg hi]
      rw [Bool.and_eq_true]
      refine ⟨compatB_iff.mpr (compat_mono_pre ⟨s, rfl⟩ hcomp), ?_⟩
      have hrec : compat s (V.drop (i + l.length)) := by
        have hcd := compat_append_drop hcomp
        rwa [List.drop_drop] at hcd
      refine ih (i + l.length) _ hrec ?_
      intro hh
      rw [Bool.and_eq_true] at hh
      have hl : l = [] := by simpa using hh.2
      subst hl
      simpa using hneed hh.1
  | star c w ps s hw hm ih =>
    intro i need hcomp hneed
    by_cases hi : V.length ≤ i
    · simp only [okFromN, if_pos hi]
      rw [canConsume_cons]
      simp [pieceCan]
    · simp only [okFromN, if_neg hi]
      rw [List.any_eq_true]
      have hiv : i < V.length := Nat.lt_of_not_le hi
      have hcw : compat w (V.drop i) := compat_mono_pre ⟨s, rfl⟩ hcomp
      rcases le_or_lt w.length (V.length - i) with hcase | hcase
      · have heq : (V.drop i).take w.length = w := by
          rw [← compat_take_eq hcw w.length le_rfl (by rw [List.length_drop]; omega),
            List.take_length]
        have hkK : w.length ≤ maxRun (clsFn c) (V.drop i) := by
          refine maxRun_ge_of_sat _ _ _ (by rw [List.length_drop]; omega) ?_
          intro x hx
          rw [heq] at hx
          exact hw x hx
        refine ⟨w.length, mem_downTo.mpr ⟨Nat.zero_le _, hkK⟩, ?_⟩
        have hrec : compat s (V.drop (i + w.length)) := by
          have hcd := compat_append_drop hcomp
          rwa [List.drop_drop] at hcd
        refine ih (i + w.length) _ hrec ?_
        intro hh
        rw [Bool.and_eq_true] at hh
        have hl : w = [] := List.length_eq_zero.mp (by simpa using hh.2)
        subst hl
        simpa using hneed hh.1
      · set k := V.length - i with hkdef
        have hkK : k ≤ maxRun (clsFn c) (V.drop i) := by
          refine maxRun_ge_of_sat _ _ _ (by rw [List.length_drop]) ?_
          intro x hx
          have heq : (V.drop i).take k = w.take k :=
            (compat_take_eq hcw k (by omega) (by rw [List.length_drop])).symm
          rw [heq] at hx
          exact hw x (List.mem_of_mem_take hx)
        refine ⟨k, mem_downTo.mpr ⟨Nat.zero_le _, hkK⟩, ?_⟩
        have hne : (need && decide (k = 0)) = false := by
          simp [show k ≠ 0 by omega]
        rw [hne]
        exact okFromN_free_false V ps (i + k) (by omega)
  | plus c w ps s hwne hw hm ih =>
    intro i need hcomp hneed
    by_cases hi : V.length ≤ i
    · simp only [okFromN, if_pos hi]
      rw [canConsume_cons]
      simp [pieceCan]
    · simp only [okFromN, if_neg hi]
      rw [List.any_eq_true]
      have hiv : i < V.length := Nat.lt_of_not_le hi
      have hcw : compat w (V.drop i) := compat_mono_pre ⟨s, rfl⟩ hcomp
      have hwlen : 1 ≤ w.length := List.length_pos.mpr hwne
      rcases le_or_lt w.length (V.length - i) with hcase | hcase
      · have heq : (V.drop i).take w.length = w := by
          rw [← compat_take_eq hcw w.length le_rfl (by rw [List.length_drop]; omega),
            List.take_length]
        have hkK : w.length ≤ maxRun (clsFn c) (V.drop i) := by
          refine maxRun_ge_of_sat _ _ _ (by rw [List.length_drop]; omega) ?_
          intro x hx
          rw [heq] at hx
          exact hw x hx
        refine ⟨w.length, mem_downTo.mpr ⟨hwlen, hkK⟩, ?_⟩
        have hrec : compat s (V.drop (i + w.length)) := by
          have hcd := compat_append_drop hcomp
          rwa [List.drop_drop] at hcd
        exact ih (i + w.length) false hrec (by simp)
      · set k := V.length - i with hkdef
        have hkK : k ≤ maxRun (clsFn c) (V.drop i) := by
          refine maxRun_ge_of_sat _ _ _ (by rw [List.length_drop]) ?_
          intro x hx
          have heq : (V.drop i).take k = w.take k :=
            (compat_take_eq hcw k (by omega) (by rw [List.length_drop])).symm
          rw [heq] at hx
          exact hw x (List.mem_of_mem_take hx)
        refine ⟨k, mem_downTo.mpr ⟨by omega, hkK⟩, ?_⟩
        exact okFromN_free_false V ps (i + k) (by omega)
  | gplus c w ps s hwne hw hm ih =>
    intro i need hcomp hneed
    by_cases hi : V.length ≤ i
    · simp only [okFromN, if_pos hi]
      rw [canConsume_cons]
      simp [pieceCan]
    · simp only [okFromN, if_neg hi]
      rw [List.any_eq_true]
      have hiv : i < V.length := Nat.lt_of_not_le hi
      have hcw : compat w (V.drop i) := compat_mono_pre ⟨s, rfl⟩ hcomp
      have hwlen : 1 ≤ w.length := List.length_pos.mpr hwne
      rcases le_or_lt w.length (V.length - i) with hcase | hcase
      · have heq : (V.drop i).take w.length = w := by
          rw [← compat_take_eq hcw w.length le_rfl (by rw [List.length_drop]; omega),
            List.take_length]
        have hkK : w.length ≤ maxRun (clsFn c) (V.drop i) := by
          refine maxRun_ge_of_sat _ _ _ (by rw [List.length_drop]; omega) ?_
          intro x hx
          rw [heq] at hx
          exact hw x hx
        refine ⟨w.length, mem_downTo.mpr ⟨hwlen, hkK⟩, ?_⟩
        have hrec : compat s (V.drop (i + w.length)) := by
          have hcd := compat_append_drop hcomp
          rwa [List.drop_drop] at hcd
        exact ih (i + w.length) false hrec (by simp)
      · set k := V.length - i with hkdef
        have hkK : k ≤ maxRun (clsFn c) (V.drop i) := by
          refine maxRun_ge_of_sat _ _ _ (by rw [List.length_drop]) ?_
          intro x hx
          have heq : (V.drop i).take k = w.take k :=
            (compat_take_eq hcw k (by omega) (by rw [List.length_drop])).symm
          rw [heq] at hx
          exact hw x (List.mem_of_mem_take hx)
        refine ⟨k, mem_downTo.mpr ⟨by omega, hkK⟩, ?_⟩
        exact okFromN_free_false V ps (i + k) (by omega)

/-- Inversion for the empty pattern. -/
theorem matches_nil_inv {t : Str} (h : Matches [] t) : t = [] := by
  cases h
  rfl

/-- Inversion for a leading literal piece. -/
theorem matches_lit_inv {l t : Str} {ps : Pat} (h : Matches (.lit l :: ps) t) :
    ∃ s, t = l ++ s ∧ Matches ps s := by
  cases h with
  | lit _ _ s hm => exact ⟨s, rfl, hm⟩

/-- Inversion for a leading captured-literal piece. -/
theorem matches_glit_inv {l t : Str} {ps : Pat} (h : Matches (.glit l :: ps) t) :
    ∃ s, t = l ++ s ∧ Matches ps s := by
  cases h with
  | glit _ _ s hm => exact ⟨s, rfl, hm⟩

/-- Inversion for a leading star piece. -/
theorem matches_star_inv {c : Cls} {t : Str} {ps : Pat} (h : Matches (.star c :: ps) t) :
    ∃ w s, t = w ++ s ∧ (∀ x ∈ w, clsFn c x = true) ∧ Matches ps s := by
  cases h with
  | star _ w _ s hw hm => exact ⟨w, s, rfl, hw, hm⟩

/-- Inversion for a leading plus piece. -/
theorem matches_plus_inv {c : Cls} {t : Str} {ps : Pat} (h : Matches (.plus c :: ps) t) :
    ∃ w s, t = w ++ s ∧ w ≠ [] ∧ (∀ x ∈ w, clsFn c x = true) ∧ Matches ps s := by
  cases h with
  | plus _ w _ s hne hw hm => exact ⟨w, s, rfl, hne, hw, hm⟩

/-- Inversion for a leading captured-plus piece. -/
theorem matches_gplus_inv {c : Cls} {t : Str} {ps : Pat} (h : Matches (.gplus c :: ps) t) :
    ∃ w s, t = w ++ s ∧ w ≠ [] ∧ (∀ x ∈ w, clsFn c x = true) ∧ Matches ps s := by
  cases h with
  | gplus _ w _ s hne hw hm => exact ⟨w, s, rfl, hne, hw, hm⟩

/-- A match that consumed a nonempty left part `s₁` before reaching a
boundary leaves a suspended continuation among the entry states, and that
continuation matches the right part. -/
theorem matches_entry : ∀ (ps : Pat) (s₁ s₂ : Str), Matches ps (s₁ ++ s₂) → s₁ ≠ [] →
    ∃ st ∈ entryStates ps, Matches st s₂ := by
  intro ps
  induction ps with
  | nil =>
    intro s₁ s₂ h h1
    have := matches_nil_inv h
    exact absurd (List.append_eq_nil.mp this).1 h1
  | cons p ps ih =>
    intro s₁ s₂ h h1
    cases p with
    | lit l =>
      obtain ⟨s, heq, hm⟩ := matches_lit_inv h
      rcases List.append_eq_append_iff.mp heq with ⟨a', ha1, ha2⟩ | ⟨c', hc1, hc2⟩
      · by_cases ha : a' = []
        · subst ha
          rw [List.append_nil] at ha1
          refine ⟨ps, ?_, ?_⟩
          · exact List.mem_append_right _ (List.mem_cons_self ps _)
          · rw [ha2, List.nil_append]
            exact hm
        · refine ⟨.lit a' :: ps, ?_, ?_⟩
          · apply List.mem_append_left
            simp only [midStates, List.mem_map]
            refine ⟨s₁.length, ?_, ?_⟩
            · rw [List.mem_range'_1]
              have h1' : 1 ≤ s₁.length := List.length_pos.mpr h1
              have h2' : a'.length ≥ 1 := List.length_pos.mpr ha
              have : l.length = s₁.length + a'.length := by rw [ha1]; simp
              omega
            · rw [ha1, List.drop_left]
          · rw [ha2]
            exact Matches.lit a' ps s hm
      · by_cases hc : c' = []
        · subst hc
          rw [List.append_nil] at hc1
          rw [List.nil_append] at hc2
          refine ⟨ps, List.mem_append_right _ (List.mem_cons_self ps _), ?_⟩
          rw [← hc2]
          exact hm
        · have hms : Matches ps (c' ++ s₂) := by rw [← hc2]; exact hm
          obtain ⟨st, hstm, hstM⟩ := ih c' s₂ hms hc
          exact ⟨st, List.mem_append_right _ (List.mem_cons_of_mem ps hstm), hstM⟩
    | glit l =>
      obtain ⟨s, heq, hm⟩ := matches_glit_inv h
      rcases List.append_eq_append_iff.mp heq with ⟨a', ha1, ha2⟩ | ⟨c', hc1, hc2⟩
      · by_cases ha : a' = []
        · subst ha
          rw [List.append_nil] at ha1
          refine ⟨ps, ?_, ?_⟩
          · exact List.mem_append_right _ (List.mem_cons_self ps _)
          · rw [ha2, List.nil_append]
            exact hm
        · refine ⟨.lit a' :: ps, ?_, ?_⟩
          · apply List.mem_append_left
            simp only [midStates, List.mem_map]
            refine ⟨s₁.length, ?_, ?_⟩
            · rw [List.mem_range'_1]
              have h1' : 1 ≤ s₁.length := List.length_pos.mpr h1
              have h2' : a'.length ≥ 1 := List.length_pos.mpr ha
              have : l.length = s₁.length + a'.length := by rw [ha1]; simp
              omega
            · rw [ha1, List.drop_left]
          · rw [ha2]
            exact Matches.lit a' ps s hm
      · by_cases hc : c' = []
        · subst hc
          rw [List.append_nil] at hc1
          rw [List.nil_append] at hc2
          refine ⟨ps, List.mem_append_right _ (List.mem_cons_self ps _), ?_⟩
          rw [← hc2]
          exact hm
        · have hms : Matches ps (c' ++ s₂) := by rw [← hc2]; exact hm
          obtain ⟨st, hstm, hstM⟩ := ih c' s₂ hms hc
          exact ⟨st, List.mem_append_right _ (List.mem_cons_of_mem ps hstm), hstM⟩
    | star c =>
      obtain ⟨w, s, heq, hw, hm⟩ := matches_star_inv h
      rcases List.append_eq_append_iff.mp heq with ⟨a', ha1, ha2⟩ | ⟨c', hc1, hc2⟩
      · refine ⟨.star c :: ps, ?_, ?_⟩
        · exact List.mem_append_left _ (by simp [midStates])
        · rw [ha2]
          refine Matches.star c a' ps s ?_ hm
          intro x hx
          exact hw x (ha1 ▸ List.mem_append_right _ hx)
      · by_cases hc : c' = []
        · subst hc
          rw [List.append_nil] at hc1
          rw [List.nil_append] at hc2
          refine ⟨ps, List.mem_append_right _ (List.mem_cons_self ps _), ?_⟩
          rw [← hc2]
          exact hm
        · have hms : Matches ps (c' ++ s₂) := by rw [← hc2]; exact hm
          obtain ⟨st, hstm, hstM⟩ := ih c' s₂ hms hc
          exact ⟨st, List.mem_append_right _ (List.mem_cons_of_mem ps hstm), hstM⟩
    | plus c =>
      obtain ⟨w, s, heq, _, hw, hm⟩ := matches_plus_inv h
      rcases List.append_eq_append_iff.mp heq with ⟨a', ha1, ha2⟩ | ⟨c', hc1, hc2⟩
      · refine ⟨.star c :: ps, ?_, ?_⟩
        · exact List.mem_append_left _ (by simp [midStates])
        · rw [ha2]
          refine Matches.star c a' ps s ?_ hm
          intro x hx
          exact hw x (ha1 ▸ List.mem_append_right _ hx)
      · by_cases hc : c' = []
        · subst hc
          rw [List.append_nil] at hc1
          rw [List.nil_append] at hc2
          refine ⟨ps, List.mem_append_right _ (List.mem_cons_self ps _), ?_⟩
          rw [← hc2]
          exact hm
        · have hms : Matches ps (c' ++ s₂) := by rw [← hc2]; exact hm
          obtain ⟨st, hstm, hstM⟩ := ih c' s₂ hms hc
          exact ⟨st, List.mem_append_right _ (List.mem_cons_of_mem ps hstm), hstM⟩
    | gplus c =>
      obtain ⟨w, s, heq, _, hw, hm⟩ := matches_gplus_inv h
      rcases List.append_eq_append_iff.mp heq with ⟨a', ha1, ha2⟩ | ⟨c', hc1, hc2⟩
      · refine ⟨.star c :: ps, ?_, ?_⟩
        · exact List.mem_append_left _ (by simp [midStates])
        · rw [ha2]
          refine Matches.star c a' ps s ?_ hm
          intro x hx
          exact hw x (ha1 ▸ List.mem_append_right _ hx)
      · by_cases hc : c' = []
        · subst hc
          rw [List.append_nil] at hc1
          rw [List.nil_append] at hc2
          refine ⟨ps, List.mem_append_right _ (List.mem_cons_self ps _), ?_⟩
          rw [← hc2]
          exact hm
        · have hms : Matches ps (c' ++ s₂) := by rw [← hc2]; exact hm
          obtain ⟨st, hstm, hstM⟩ := ih c' s₂ hms hc
          exact ⟨st, List.mem_append_right _ (List.mem_cons_of_mem ps hstm), hstM⟩

/-- The decidable no-touch check is sound: when it passes, no nonempty
match of the pattern, wherever it starts in `x ++ (V ++ y)`, overlaps any
position of the `V` segment. -/
theorem checker_no_fire_touch (P : Pat) (V : Str) (h : noTouchB P V = true) :
    ∀ (x y : Str) (q n : Nat) (caps : List Str),
    tryFrom P (List.drop q (x ++ (V ++ y))) = some (n + 1, caps) →
    q + (n + 1) ≤ x.length ∨ x.length + V.length ≤ q := by
  intro x y q n caps htf
  by_contra hcon
  push_neg at hcon
  obtain ⟨hb1, hb2⟩ := hcon
  obtain ⟨hM, hlen⟩ := tryFrom_sound P _ _ _ htf
  unfold noTouchB at h
  rw [Bool.and_eq_true] at h
  obtain ⟨hin, hentry⟩ := h
  rcases le_or_lt x.length q with hq | hq
  · have hiV : q - x.length < V.length := by omega
    have hi0 : q - x.length - V.length = 0 := by omega
    have hdropT : List.drop q (x ++ (V ++ y)) = V.drop (q - x.length) ++ y := by
      rw [List.drop_append_eq_append_drop, List.drop_eq_nil_of_le hq, List.nil_append,
        List.drop_append_eq_append_drop, hi0, List.drop_zero]
    have hcompat : compat ((List.drop q (x ++ (V ++ y))).take (n + 1))
        (V.drop (q - x.length)) := by
      rw [hdropT]
      exact compat_take_append _ _ _
    have hsne : ((List.drop q (x ++ (V ++ y))).take (n + 1)) ≠ [] := by
      apply List.ne_nil_of_length_pos
      rw [List.length_take]
      omega
    have hok := matches_ok V hM (q - x.length) true hcompat (fun _ => hsne)
    have hfalse := List.all_eq_true.mp hin (q - x.length) (List.mem_range.mpr hiV)
    rw [hok] at hfalse
    simp at hfalse
  · set s := (List.drop q (x ++ (V ++ y))).take (n + 1) with hsdef
    have hTlen : n + 1 ≤ (List.drop q (x ++ (V ++ y))).length := hlen
    have hslen : s.length = n + 1 := by
      rw [hsdef, List.length_take]
      omega
    set d := x.length - q with hddef
    have hd1 : 1 ≤ d := by omega
    have hdn : d ≤ n := by omega
    have hs1 : s.take d ≠ [] := by
      apply List.ne_nil_of_length_pos
      rw [List.length_take]
      omega
    have hs2 : s.drop d ≠ [] := by
      apply List.ne_nil_of_length_pos
      rw [List.length_drop]
      omega
    have hMs : Matches P (s.take d ++ s.drop d) := by
      rw [List.take_append_drop]
      exact hM
    obtain ⟨st, hstm, hstM⟩ := matches_entry P (s.take d) (s.drop d) hMs hs1
    have hdropA : List.drop x.length (x ++ (V ++ y)) = V ++ y := by
      rw [List.drop_append_eq_append_drop, List.drop_eq_nil_of_le le_rfl, List.nil_append,
        Nat.sub_self, List.drop_zero]
    have hs2eq : s.drop d = (V ++ y).take (n + 1 - d) := by
      rw [hsdef, List.drop_take]
      congr 1
      rw [List.drop_drop]
      rw [show q + d = x.length by omega]
      exact hdropA
    have hcompat2 : compat (s.drop d) (V.drop 0) := by
      rw [List.drop_zero, hs2eq]
      exact compat_take_append _ _ _
    have hok := matches_ok V hstM 0 true hcompat2 (fun _ => hs2)
    have hfalse := List.all_eq_true.mp hentry st hstm
    rw [hok] at hfalse
    simp at hfalse

/-- The window does not contain the digram `aw`, has no final stray `a`,
and starts with a closing brace. -/
theorem vWindow_awaitFacts :
    (∀ i, i < vWindow.length →
      ((vWindow.drop i).take 2 ≠ S "aw" ∧ vWindow.drop i ≠ S "a")) ∧
    vWindow.take 1 = [Char.ofNat 125] := by
  refine ⟨?_, by decide⟩
  decide

/-- No match of the `await`-call literal — for a lower-cased entity name
free of closing braces — can overlap the protected window: the window
contains neither the digram `aw` nor a final stray `a`, and it starts with
a closing brace that no character of the literal can be. -/
theorem await_no_fire_touch (lower : Str) (hl : ∀ c ∈ lower, c ≠ Char.ofNat 125) :
    ∀ (x y : Str) (q n : Nat) (caps : List Str),
    tryFrom (awaitPat lower) (List.drop q (x ++ (vWindow ++ y))) = some (n + 1, caps) →
    q + (n + 1) ≤ x.length ∨ x.length + vWindow.length ≤ q := by
  intro x y q n caps htf
  by_contra hcon
  push_neg at hcon
  obtain ⟨hb1, hb2⟩ := hcon
  obtain ⟨hM, hlen⟩ := tryFrom_sound _ _ _ _ htf
  obtain ⟨hF1, hF2⟩ := vWindow_awaitFacts
  set L := S "await " ++ (lower ++ S ".") with hLdef
  have hLP : awaitPat lower = [.lit L] := by
    rw [awaitPat, hLdef, List.append_assoc]
  rw [hLP] at hM
  have hL2 : 2 ≤ L.length := by
    rw [hLdef]
    have h6 : (S "await ").length = 6 := by decide
    simp [h6]
    omega
  have hLtake2 : L.take 2 = S "aw" := by
    rw [hLdef, List.take_append_of_le_length (by decide)]
    decide
  have hbraceL : Char.ofNat 125 ∉ L := by
    rw [hLdef]
    intro hmem
    rcases List.mem_append.mp hmem with hmem | hmem
    · revert hmem; decide
    · rcases List.mem_append.mp hmem with hmem | hmem
      · exact hl _ hmem rfl
      · revert hmem; decide
  rcases le_or_lt x.length q with hq | hq
  · -- the literal would start inside the window
    have hiV : q - x.length < vWindow.length := by omega
    have hi0 : q - x.length - vWindow.length = 0 := by omega
    have hdropT : List.drop q (x ++ (vWindow ++ y)) = vWindow.drop (q - x.length) ++ y := by
      rw [List.drop_append_eq_append_drop, List.drop_eq_nil_of_le hq, List.nil_append,
        List.drop_append_eq_append_drop, hi0, List.drop_zero]
    obtain ⟨s', hseq, hnil⟩ := matches_lit_inv hM
    have hs' : s' = [] := matches_nil_inv hnil
    subst hs'
    rw [List.append_nil] at hseq
    have hcompat : compat L (vWindow.drop (q - x.length)) := by
      rw [← hseq, hdropT]
      exact compat_take_append _ _ _
    set w := vWindow.drop (q - x.length) with hwdef
    have hwlen : 1 ≤ w.length := by
      rw [hwdef, List.length_drop]
      omega
    obtain ⟨hnoaw, hnoa⟩ := hF1 (q - x.length) hiV
    rcases le_or_lt 2 w.length with hw2 | hw2
    · have := compat_take_eq hcompat 2 hL2 hw2
      rw [hLtake2] at this
      exact hnoaw this.symm
    · have hw1 : w.length = 1 := by omega
      rcases hcompat with hpre | hpre
      · exact absurd hpre.length_le (by omega)
      · have hweq : w = L.take w.length := List.prefix_iff_eq_take.mp hpre
        rw [hw1] at hweq
        have : L.take 1 = S "a" := by
          rw [hLdef, List.take_append_of_le_length (by decide)]
          decide
        rw [this] at hweq
        exact hnoa hweq
  · -- the literal would start left of the window and cross into it
    set s := (List.drop q (x ++ (vWindow ++ y))).take (n + 1) with hsdef
    have hslen : s.length = n + 1 := by
      rw [hsdef, List.length_take]
      omega
    set d := x.length - q with hddef
    have hs1 : s.take d ≠ [] := by
      apply List.ne_nil_of_length_pos
      rw [List.length_take]
      omega
    have hs2 : s.drop d ≠ [] := by
      apply List.ne_nil_of_length_pos
      rw [List.length_drop]
      omega
    have hMs : Matches [.lit L] (s.take d ++ s.drop d) := by
      rw [List.take_append_drop]
      exact hM
    obtain ⟨st, hstm, hstM⟩ := matches_entry _ (s.take d) (s.drop d) hMs hs1
    have hdropA : List.drop x.length (x ++ (vWindow ++ y)) = vWindow ++ y := by
      rw [List.drop_append_eq_append_drop, List.drop_eq_nil_of_le le_rfl, List.nil_append,
        Nat.sub_self, List.drop_zero]
    have hs2eq : s.drop d = (vWindow ++ y).take (n + 1 - d) := by
      rw [hsdef, List.drop_take]
      congr 1
      rw [List.drop_drop]
      rw [show q + d = x.length by omega]
      exact hdropA
    have hcompat2 : compat (s.drop d) vWindow := by
      rw [hs2eq]
      exact compat_take_append _ _ _
    -- identify the entry state
    have hstcases : st = [] ∨ ∃ j, st = [Piece.lit (L.drop j)] := by
      rw [entryStates] at hstm
      rcases List.mem_append.mp hstm with hmem | hmem
      · simp only [midStates, List.mem_map] at hmem
        obtain ⟨j, _, rfl⟩ := hmem
        exact Or.inr ⟨j, rfl⟩
      · rcases List.mem_cons.mp hmem with rfl | hmem
        · exact Or.inl rfl
        · simp [entryStates] at hmem
    rcases hstcases with rfl | ⟨j, rfl⟩
    · exact hs2 (matches_nil_inv hstM)
    · obtain ⟨s'', hseq, hnil⟩ := matches_lit_inv hstM
      have hs'' : s'' = [] := matches_nil_inv hnil
      subst hs''
      rw [List.append_nil] at hseq
      -- the first character of the right part is the window's brace
      have hd1 : 1 ≤ (s.drop d).length := List.length_pos.mpr hs2
      have htake1 : (s.drop d).take 1 = [Char.ofNat 125] := by
        have := compat_take_eq hcompat2 1 hd1 (by decide)
        rw [this, hF2]
      have hmem : Char.ofNat 125 ∈ s.drop d := by
        have : Char.ofNat 125 ∈ (s.drop d).take 1 := by
          rw [htake1]
          exact List.mem_cons_self _ _
        exact List.mem_of_mem_take this
      rw [hseq] at hmem
      exact hbraceL (List.drop_subset j L hmem)

/-- Fuel is irrelevant to the scan once it covers the string length. -/
theorem subAux_fuel_irrel (p : Pat) (r : Repl) :
    ∀ (f₁ f₂ : Nat) (s : Str), s.length ≤ f₁ → s.length ≤ f₂ →
    subAux p r f₁ s = subAux p r f₂ s := by
  intro f₁
  induction f₁ with
  | zero =>
    intro f₂ s h1 _
    have hs : s = [] := List.eq_nil_of_length_eq_zero (by omega)
    subst hs
    rw [subAux_nil, subAux_nil]
  | succ f ih =>
    intro f₂ s h1 h2
    cases s with
    | nil => rw [subAux_nil, subAux_nil]
    | cons c rest =>
      cases f₂ with
      | zero => simp at h2
      | succ g =>
        cases htf : tryFrom p (c :: rest) with
        | none =>
          simp only [subAux, htf]
          exact congrArg (c :: ·) (ih g rest (by simp at h1; omega) (by simp at h2; omega))
        | some pr =>
          obtain ⟨m, caps⟩ := pr
          cases m with
          | zero =>
            simp only [subAux, htf]
            exact congrArg (c :: ·) (ih g rest (by simp at h1; omega) (by simp at h2; omega))
          | succ m' =>
            simp only [subAux, htf]
            refine congrArg (applyRepl r caps ++ ·) (ih g _ ?_ ?_) <;>
              · rw [List.length_drop]
                simp only [List.length_cons] at h1 h2 ⊢
                omega

/-- When every match starting inside the left part stays inside it, the
scan factors through the left part. -/
theorem subAux_prefix_split (p : Pat) (r : Repl) :
    ∀ (fuel : Nat) (x Z : Str), (x ++ Z).length ≤ fuel →
    (∀ q n caps, q < x.length → tryFrom p (List.drop q (x ++ Z)) = some (n + 1, caps) →
      q + (n + 1) ≤ x.length) →
    ∃ x', subAux p r fuel (x ++ Z) = x' ++ subAux p r Z.length Z := by
  intro fuel
  induction fuel with
  | zero =>
    intro x Z hlen _
    simp only [List.length_append] at hlen
    have hx : x = [] := List.eq_nil_of_length_eq_zero (by omega)
    have hz : Z = [] := List.eq_nil_of_length_eq_zero (by omega)
    subst hx; subst hz
    exact ⟨[], by simp [subAux_nil]⟩
  | succ f ih =>
    intro x Z hlen H
    cases x with
    | nil =>
      refine ⟨[], ?_⟩
      rw [List.nil_append, List.nil_append]
      exact subAux_fuel_irrel p r (f + 1) Z.length Z (by simpa using hlen) le_rfl
    | cons c x'' =>
      have hshift1 : ∀ q n caps, q < x''.length →
          tryFrom p (List.drop q (x'' ++ Z)) = some (n + 1, caps) →
          q + (n + 1) ≤ x''.length := by
        intro q n caps hq htf'
        have := H (q + 1) n caps (by simp; omega) (by simpa using htf')
        simp only [List.length_cons] at this
        omega
      cases htf : tryFrom p (c :: (x'' ++ Z)) with
      | none =>
        show ∃ x', subAux p r (f + 1) (c :: (x'' ++ Z)) = x' ++ subAux p r Z.length Z
        simp only [subAux, htf]
        obtain ⟨x', hx'⟩ := ih x'' Z (by simp at hlen ⊢; omega) hshift1
        exact ⟨c :: x', by rw [hx', List.cons_append]⟩
      | some pr =>
        obtain ⟨m, caps⟩ := pr
        cases m with
        | zero =>
          show ∃ x', subAux p r (f + 1) (c :: (x'' ++ Z)) = x' ++ subAux p r Z.length Z
          simp only [subAux, htf]
          obtain ⟨x', hx'⟩ := ih x'' Z (by simp at hlen ⊢; omega) hshift1
          exact ⟨c :: x', by rw [hx', List.cons_append]⟩
        | succ m' =>
          have hcont : m' + 1 ≤ (c :: x'').length := by
            have := H 0 m' caps (by simp) (by simpa using htf)
            simpa using this
          have hdrop : ((c :: x'') ++ Z).drop (m' + 1) = ((c :: x'').drop (m' + 1)) ++ Z := by
            rw [List.drop_append_eq_append_drop, Nat.sub_eq_zero_of_le hcont, List.drop_zero]
          have hshift2 : ∀ q n caps', q < ((c :: x'').drop (m' + 1)).length →
              tryFrom p (List.drop q (((c :: x'').drop (m' + 1)) ++ Z)) = some (n + 1, caps') →
              q + (n + 1) ≤ ((c :: x'').drop (m' + 1)).length := by
            intro q n caps' hq htf'
            rw [← hdrop, List.drop_drop] at htf'
            rw [List.length_drop] at hq
            have := H (m' + 1 + q) n caps' (by simp only [List.length_cons] at hq ⊢; omega) htf'
            rw [List.length_drop]
            simp only [List.length_cons] at this hq ⊢
            omega
          have hlen2 : (((c :: x'').drop (m' + 1)) ++ Z).length ≤ f := by
            rw [List.length_append, List.length_drop]
            simp only [List.length_append, List.length_cons] at hlen
            simp only [List.length_cons]
            omega
          show ∃ x', subAux p r (f + 1) (c :: (x'' ++ Z)) = x' ++ subAux p r Z.length Z
          simp only [subAux, htf]
          obtain ⟨x', hx'⟩ := ih ((c :: x'').drop (m' + 1)) Z hlen2 hshift2
          refine ⟨applyRepl r caps ++ x', ?_⟩
          have hdrop' : (c :: (x'' ++ Z)).drop (m' + 1) = ((c :: x'').drop (m' + 1)) ++ Z := by
            rw [← List.cons_append, hdrop]
          rw [hdrop', hx', List.append_assoc]

/-- A head in which no match can start is copied verbatim by the scan. -/
theorem subAux_copy_head (p : Pat) (r : Repl) :
    ∀ (V y : Str) (fuel : Nat), (V ++ y).length ≤ fuel →
    (∀ q n caps, q < V.length → tryFrom p (List.drop q (V ++ y)) ≠ some (n + 1, caps)) →
    ∃ y', subAux p r fuel (V ++ y) = V ++ y' := by
  intro V
  induction V with
  | nil =>
    intro y fuel _ _
    exact ⟨subAux p r fuel y, by simp⟩
  | cons c V' ihV =>
    intro y fuel hlen H
    cases fuel with
    | zero => simp at hlen
    | succ f =>
      have hshift : ∀ q n caps, q < V'.length →
          tryFrom p (List.drop q (V' ++ y)) ≠ some (n + 1, caps) := by
        intro q n caps hq
        have := H (q + 1) n caps (by simp; omega)
        simpa using this
      cases htf : tryFrom p (c :: (V' ++ y)) with
      | none =>
        show ∃ y', subAux p r (f + 1) (c :: (V' ++ y)) = (c :: V') ++ y'
        simp only [subAux, htf]
        obtain ⟨y', hy'⟩ := ihV y f
          (by simp only [List.cons_append, List.length_cons] at hlen; omega) hshift
        exact ⟨y', by rw [hy', List.cons_append]⟩
      | some pr =>
        obtain ⟨m, caps⟩ := pr
        cases m with
        | zero =>
          show ∃ y', subAux p r (f + 1) (c :: (V' ++ y)) = (c :: V') ++ y'
          simp only [subAux, htf]
          obtain ⟨y', hy'⟩ := ihV y f
            (by simp only [List.cons_append, List.length_cons] at hlen; omega) hshift
          exact ⟨y', by rw [hy', List.cons_append]⟩
        | succ m' =>
          exfalso
          exact H 0 m' caps (by simp) (by simpa using htf)

/-- When no match can touch the `V` segment, the scan leaves it intact. -/
theorem sub_protect (p : Pat) (r : Repl) (x V y : Str)
    (H : ∀ q n caps, tryFrom p (List.drop q (x ++ (V ++ y))) = some (n + 1, caps) →
      q + (n + 1) ≤ x.length ∨ x.length + V.length ≤ q) :
    ∃ x' y', sub p r (x ++ (V ++ y)) = x' ++ (V ++ y') := by
  have H1 : ∀ q n caps, q < x.length →
      tryFrom p (List.drop q (x ++ (V ++ y))) = some (n + 1, caps) →
      q + (n + 1) ≤ x.length := by
    intro q n caps hq htf
    rcases H q n caps htf with h' | h'
    · exact h'
    · omega
  have H2 : ∀ q n caps, q < V.length →
      tryFrom p (List.drop q (V ++ y)) ≠ some (n + 1, caps) := by
    intro q n caps hq htf
    have hdq : List.drop (x.length + q) (x ++ (V ++ y)) = List.drop q (V ++ y) := by
      rw [List.drop_append_eq_append_drop, List.drop_eq_nil_of_le (by omega),
        List.nil_append, Nat.add_sub_cancel_left]
    rw [← hdq] at htf
    rcases H (x.length + q) n caps htf with h' | h' <;> omega
  obtain ⟨x', hx'⟩ := subAux_prefix_split p r (x ++ (V ++ y)).length x (V ++ y) le_rfl H1
  obtain ⟨y', hy'⟩ := subAux_copy_head p r V y (V ++ y).length le_rfl H2
  exact ⟨x', y', by rw [sub, hx', hy']⟩

/-- The length of a match reported by the matcher is bounded by the
input length (projection of `tryFrom_sound`). -/
theorem tryFrom_le_length {ps : Pat} {s : Str} {n : Nat} {caps : List Str}
    (h : tryFrom ps s = some (n, caps)) : n ≤ s.length :=
  (tryFrom_sound ps s n caps h).2

/-- When a match fires somewhere in the string, the scan's output contains
the expanded replacement of some firing position. -/
theorem sub_emits (p : Pat) (r : Repl) :
    ∀ (s : Str) (fuel : Nat), s.length ≤ fuel → hasMatch p s = true →
    ∃ u caps v, subAux p r fuel s = u ++ (applyRepl r caps ++ v) ∧
      ∃ t m, tryFrom p t = some (m + 1, caps) := by
  intro s
  induction s with
  | nil =>
    intro fuel _ hm
    exfalso
    rw [hasMatch] at hm
    unfold fires at hm
    cases htf : tryFrom p [] with
    | none => rw [htf] at hm; simp at hm
    | some pr =>
      obtain ⟨m, caps⟩ := pr
      cases m with
      | zero => rw [htf] at hm; simp at hm
      | succ m' =>
        have := tryFrom_le_length htf
        simp at this
  | cons c rest ih =>
    intro fuel hlen hm
    cases fuel with
    | zero => simp at hlen
    | succ f =>
      cases htf : tryFrom p (c :: rest) with
      | some pr =>
        obtain ⟨m, caps⟩ := pr
        cases m with
        | succ m' =>
          refine ⟨[], caps, subAux p r f ((c :: rest).drop (m' + 1)), ?_, (c :: rest), m', htf⟩
          simp only [subAux, htf, List.nil_append]
        | zero =>
          have hfires : fires p (c :: rest) = false := by simp [fires, htf]
          rw [hasMatch, hfires, Bool.false_or] at hm
          obtain ⟨u, caps', v, hsub, hw⟩ := ih f (by simp at hlen; omega) hm
          refine ⟨c :: u, caps', v, ?_, hw⟩
          simp only [subAux, htf]
          rw [hsub, List.cons_append]
      | none =>
        have hfires : fires p (c :: rest) = false := by simp [fires, htf]
        rw [hasMatch, hfires, Bool.false_or] at hm
        obtain ⟨u, caps', v, hsub, hw⟩ := ih f (by simp at hlen; omega) hm
        refine ⟨c :: u, caps', v, ?_, hw⟩
        simp only [subAux, htf]
        rw [hsub, List.cons_append]

/-- The single captured-literal pattern always captures exactly its
literal. -/
theorem tryFrom_glit_caps (L t : Str) (n : Nat) (caps : List Str)
    (h : tryFrom [.glit L] t = some (n, caps)) : caps = [L] := by
  simp only [tryFrom] at h
  by_cases hpre : L.isPrefixOf t
  · rw [if_pos hpre] at h
    simp only [tryFrom, Option.map_some'] at h
    injection h with h'
    injection h' with h1 h2
    exact h2.symm
  · rw [if_neg hpre] at h
    simp at h

/-- The scan fires on a string that starts with the literal of a
single-literal pattern. -/
theorem fires_lit_self (L v : Str) (hL : L ≠ []) : fires [.lit L] (L ++ v) = true := by
  obtain ⟨c, L', rfl⟩ : ∃ c L', L = c :: L' := by
    cases L with
    | nil => exact absurd rfl hL
    | cons c L' => exact ⟨c, L', rfl⟩
  have hpre : (c :: L').isPrefixOf ((c :: L') ++ v) = true :=
    List.isPrefixOf_iff_prefix.mpr ⟨v, rfl⟩
  simp [fires, tryFrom, hpre]

/-- Same for the captured-literal pattern. -/
theorem fires_glit_self (L v : Str) (hL : L ≠ []) : fires [.glit L] (L ++ v) = true := by
  obtain ⟨c, L', rfl⟩ : ∃ c L', L = c :: L' := by
    cases L with
    | nil => exact absurd rfl hL
    | cons c L' => exact ⟨c, L', rfl⟩
  have hpre : (c :: L').isPrefixOf ((c :: L') ++ v) = true :=
    List.isPrefixOf_iff_prefix.mpr ⟨v, rfl⟩
  simp [fires, tryFrom, hpre]

/-- A firing suffix gives a match somewhere in any extension. -/
theorem hasMatch_append_of_fires (p : Pat) :
    ∀ (u t : Str), fires p t = true → hasMatch p (u ++ t) = true := by
  intro u
  induction u with
  | nil =>
    intro t hf
    cases t with
    | nil => rw [List.nil_append, hasMatch]; exact hf
    | cons c rest => rw [List.nil_append, hasMatch, hf, Bool.true_or]
  | cons c u' ih =>
    intro t hf
    rw [List.cons_append, hasMatch, ih t hf, Bool.or_true]

/-- Containment yields a decomposition around the needle. -/
theorem containsStr_decomp (m : Str) :
    ∀ s : Str, containsStr m s = true → ∃ u v, s = u ++ (m ++ v) := by
  intro s
  induction s with
  | nil =>
    intro h
    rw [containsStr] at h
    have : m = [] := by simpa [List.isEmpty_iff] using h
    exact ⟨[], [], by simp [this]⟩
  | cons c rest ih =>
    intro h
    rw [containsStr, Bool.or_eq_true] at h
    rcases h with h | h
    · obtain ⟨v, hv⟩ := List.isPrefixOf_iff_prefix.mp h
      exact ⟨[], v, by rw [List.nil_append, hv]⟩
    · obtain ⟨u, v, huv⟩ := ih h
      exact ⟨c :: u, v, by rw [huv, List.cons_append]⟩

/-- Containment is stable under prepending. -/
theorem containsStr_append_right (m : Str) :
    ∀ (u t : Str), containsStr m t = true → containsStr m (u ++ t) = true := by
  intro u
  induction u with
  | nil => intro t h; rwa [List.nil_append]
  | cons c u' ih =>
    intro t h
    rw [List.cons_append, containsStr, ih t h, Bool.or_true]

/-- A string starting with the needle contains it. -/
theorem containsStr_prefix_self (m v : Str) : containsStr m (m ++ v) = true := by
  cases m with
  | nil =>
    cases v with
    | nil => rfl
    | cons c rest => rw [List.nil_append, containsStr]; simp [List.isPrefixOf]
  | cons c m' =>
    rw [List.cons_append, containsStr]
    have : (c :: m').isPrefixOf ((c :: m') ++ v) = true :=
      List.isPrefixOf_iff_prefix.mpr ⟨v, rfl⟩
    rw [List.cons_append] at this
    rw [this, Bool.true_or]

/-- Containment in a segment survives arbitrary flanks. -/
theorem containsStr_within (m w : Str) (h : containsStr m w = true) :
    ∀ x y : Str, containsStr m (x ++ (w ++ y)) = true := by
  intro x y
  obtain ⟨u, v, rfl⟩ := containsStr_decomp m w h
  have : x ++ ((u ++ (m ++ v)) ++ y) = (x ++ u) ++ (m ++ (v ++ y)) := by
    simp [List.append_assoc]
  rw [this]
  exact containsStr_append_right m (x ++ u) _ (containsStr_prefix_self m (v ++ y))

/-! ## The claims -/

/-- C1, counterexample: running the File Processor twice is not the same
as running it once on a file whose content mentions `mockAxios.` but has
no axios import line: the first run never inserts the marker token, so the
second run fires `mockAxios\.` again inside the already-rewritten text and
produces `setup.setup.mockAxios.x`. -/
theorem c1_twice_differs_cex :
    afterRun (S "widgets.test.ts") (afterRun (S "widgets.test.ts") (S "mockAxios.x")) ≠
      afterRun (S "widgets.test.ts") (S "mockAxios.x") := by
  decide

/-- C1 (amended): running the File Processor twice yields the same on-disk
content as running it once, provided the content after the first run
contains the marker token (in particular whenever the first run inserted
the helper-import block); the guard then triggers on the second run and
the file is skipped with no write. -/
theorem c1_idempotent_of_marker_amended (filepath content : Str)
    (h : containsStr markerStr (afterRun filepath content) = true) :
    afterRun filepath (afterRun filepath content) = afterRun filepath content := by
  have hskip : process_file filepath (afterRun filepath content) = none := by
    unfold process_file
    simp [h]
  show (process_file filepath (afterRun filepath content)).getD (afterRun filepath content) =
    afterRun filepath content
  rw [hskip]
  rfl

/-- Witness for the amended C1 at a concrete marked file. -/
theorem c1_idempotent_amended_witness :
    containsStr markerStr (afterRun (S "widgets.test.ts") markerStr) = true ∧
      afterRun (S "widgets.test.ts") (afterRun (S "widgets.test.ts") markerStr) =
        afterRun (S "widgets.test.ts") markerStr :=
  ⟨by decide, c1_idempotent_of_marker_amended (S "widgets.test.ts") markerStr (by decide)⟩

/-- C2, counterexample: the Name Deriver lower-cases every character after
the first (Python `str.capitalize`), so base name `aBCtest` yields
`Abctest`, not the claimed `ABCtest`. -/
theorem c2_capitalize_cex :
    get_entity_name_from_file (S "aBCtest.test.ts") = S "Abctest" ∧
      S "Abctest" ≠ S "ABCtest" := by
  refine ⟨by decide, by decide⟩

/-- C2 (amended): for a slash-free base name whose only occurrence of the
test suffix is the final one, the Name Deriver strips the suffix,
upper-cases the first character and lower-cases all remaining characters. -/
theorem c2_name_deriver_amended (b : Str)
    (h1 : ∀ c ∈ b, c ≠ '/')
    (h2 : ∀ q, q < b.length →
      (S ".test.ts").isPrefixOf (List.drop q (b ++ S ".test.ts")) = false) :
    get_entity_name_from_file (b ++ S ".test.ts") =
      match b with
      | [] => []
      | c :: rest => Char.toUpper c :: rest.map Char.toLower := by
  have hsuf : ∀ x ∈ S ".test.ts", x ≠ '/' := by decide
  have hb : pyBasename (b ++ S ".test.ts") = b ++ S ".test.ts" := by
    apply pyBasename_id
    intro c hc
    rcases List.mem_append.mp hc with h | h
    · exact h1 c h
    · exact hsuf c h
  unfold get_entity_name_from_file
  rw [hb, pyReplaceAll_strip_tail _ _ (by decide) h2]
  cases b <;> rfl

/-- Witness for the amended C2 at base name `aBCtest`. -/
theorem c2_name_deriver_witness :
    (∀ c ∈ S "aBCtest", c ≠ '/') ∧
    (∀ q, q < (S "aBCtest").length →
      (S ".test.ts").isPrefixOf (List.drop q (S "aBCtest" ++ S ".test.ts")) = false) ∧
    get_entity_name_from_file (S "aBCtest" ++ S ".test.ts") =
      match S "aBCtest" with
      | [] => []
      | c :: rest => Char.toUpper c :: rest.map Char.toLower :=
  ⟨by decide, by decide, c2_name_deriver_amended (S "aBCtest") (by decide) (by decide)⟩

/-- C3, counterexample: a file containing none of the claim's enumerated
source patterns is still rewritten, because the Assertion Rewriter's third
substitution collapses any brace-whitespace-`});` sequence: content
`a}  });b` is written back as `a});b`. -/
theorem c3_passthrough_cex :
    process_file (S "widgets.test.ts") (S "a\x7d  \x7d);b") = some (S "a\x7d);b") ∧
      S "a\x7d);b" ≠ S "a\x7d  \x7d);b" := by
  refine ⟨by decide, by decide⟩

/-- C3 (amended): a marker-free file in which none of the rewrite patterns
matches anywhere — including also the new-style AxiosInstance import line
(which triggers the helper-import insertion), the `params:`-filter wrapper
pattern and the brace-collapse pattern — is written back with content
identical to the original: every rewrite step with no match is a silent
no-op. -/
theorem c3_no_match_passthrough_amended (filepath content : Str)
    (hm : containsStr markerStr content = false)
    (h1 : hasMatch impPat1 content = false)
    (h2 : hasMatch impPat2 content = false)
    (h3 : hasMatch (awaitPat (pyLower (get_entity_name_from_file filepath))) content = false)
    (h4 : hasMatch mockAxiosPat content = false)
    (h5 : hasMatch expectMockAxiosPat content = false)
    (h6 : hasMatch pageSizePat content = false)
    (h7 : hasMatch mockListPat content = false)
    (h8 : hasMatch mockEmptyPat content = false)
    (h9 : hasMatch mockSinglePat content = false)
    (h10 : hasMatch mockCreatePat content = false)
    (h11 : hasMatch mockPutPat content = false)
    (h12 : hasMatch mockPatchPat content = false)
    (h13 : hasMatch mockDeletePat content = false)
    (h14 : hasMatch expectQueryPat content = false)
    (h15 : hasMatch paramsFilterPat content = false)
    (h16 : hasMatch braceClosePat content = false) :
    process_file filepath content = some content := by
  unfold process_file
  simp only [hm, Bool.false_eq_true, if_false]
  simp only [rewritePipeline, fix_imports, fix_method_calls, fix_mock_responses,
    fix_test_expectations]
  rw [sub_id_of_no_match _ _ _ h1, sub_id_of_no_match _ _ _ h2,
    sub_id_of_no_match _ _ _ h3, sub_id_of_no_match _ _ _ h4,
    sub_id_of_no_match _ _ _ h5, sub_id_of_no_match _ _ _ h6,
    sub_id_of_no_match _ _ _ h7, sub_id_of_no_match _ _ _ h8,
    sub_id_of_no_match _ _ _ h9, sub_id_of_no_match _ _ _ h10,
    sub_id_of_no_match _ _ _ h11, sub_id_of_no_match _ _ _ h12,
    sub_id_of_no_match _ _ _ h13, sub_id_of_no_match _ _ _ h14,
    sub_id_of_no_match _ _ _ h15, sub_id_of_no_match _ _ _ h16]

/-- Witness for the amended C3 on content `hello`. -/
theorem c3_no_match_witness :
    containsStr markerStr (S "hello") = false ∧
      process_file (S "widgets.test.ts") (S "hello") = some (S "hello") :=
  ⟨by decide,
    c3_no_match_passthrough_amended (S "widgets.test.ts") (S "hello") (by decide) (by decide)
      (by decide) (by decide) (by decide) (by decide) (by decide) (by decide) (by decide)
      (by decide) (by decide) (by decide) (by decide) (by decide) (by decide) (by decide)
      (by decide)⟩

/-- C4, evaluation at the failing input: because `fix_method_calls` has
already rewritten `mockAxios.` to `setup.mockAxios.` before
`fix_mock_responses` runs, the mock-response pattern fires on the
`mockAxios.get...` substring of the already-prefixed text and the written
content carries a doubled `setup.setup.` prefix, for both the
list-with-data and the empty-list shapes — not the claimed
`setup.mockAxios.post...` form. -/
theorem c4_double_setup_prefix_eval :
    process_file (S "widgets.test.ts")
        (S "mockAxios.get.mockResolvedValueOnce(\x7b data: \x7b items: mockData \x7d, status: 200 \x7d);") =
      some (S "setup.setup.mockAxios.post.mockResolvedValueOnce(\n        createMockItemsResponse(mockData)\n      );") ∧
    process_file (S "widgets.test.ts")
        (S "mockAxios.get.mockResolvedValueOnce(\x7b data: \x7b items: [] \x7d, status: 200 \x7d);") =
      some (S "setup.setup.mockAxios.post.mockResolvedValueOnce(\n        createMockItemsResponse([])\n      );") := by
  refine ⟨by decide, by decide⟩

/-- C5, counterexample: on the claim's literal assertion the Assertion
Rewriter does not produce the claimed exact text — the replacement inserts
a newline and eight spaces before `filter:` and the second closing brace
survives (the collapse step requires a trailing semicolon). -/
theorem c5_exact_output_cex :
    fix_test_expectations
        (S "expect(setup.mockAxios.get).toHaveBeenCalledWith(\x27/widgets/query\x27, \x7b params: \x7b filter: X \x7d \x7d)") ≠
      S "expect(setup.mockAxios.post).toHaveBeenCalledWith(\x27/widgets/query\x27, \x7b filter: X \x7d)" := by
  decide

/-- C5 (amended): on the claim's literal assertion the Assertion Rewriter
swaps the verb to `post` and removes the `params:` wrapper key, but places
`filter:` on a new line after eight spaces of indentation and leaves the
now-extra closing brace in place (it is collapsed only when the assertion
ends with `});`). -/
theorem c5_assertion_rewrite_amended :
    fix_test_expectations
        (S "expect(setup.mockAxios.get).toHaveBeenCalledWith(\x27/widgets/query\x27, \x7b params: \x7b filter: X \x7d \x7d)") =
      S "expect(setup.mockAxios.post).toHaveBeenCalledWith(\x27/widgets/query\x27, \x7b\n        filter: X \x7d \x7d)" := by
  decide

/-- C6: a file whose content contains the literal marker string is skipped
by `process_file` with no write, regardless of the rest of its content. -/
theorem c6_marker_skips (filepath content : Str)
    (h : containsStr markerStr content = true) :
    process_file filepath content = none := by
  unfold process_file
  simp [h]

/-- Witness for C6 on content equal to the marker itself. -/
theorem c6_marker_skips_witness :
    containsStr markerStr markerStr = true ∧
      process_file (S "widgets.test.ts") markerStr = none :=
  ⟨by decide, c6_marker_skips (S "widgets.test.ts") markerStr (by decide)⟩

/-- C7: a file whose name is in the static exclusion set is never among
the files the Batch Driver processes (so it is never opened for writing),
and its content is unchanged after the run, for every directory listing
and every store. -/
theorem c7_excluded_files_untouched (f : String) (hf : f ∈ fixed_files)
    (st : String → Str) (files : List String) :
    f ∉ mainSelect files ∧ runMain st files f = st f := by
  refine ⟨mainSelect_excludes f hf files, ?_⟩
  unfold runMain
  exact foldl_updateStore_not_mem _ st f (mainSelect_excludes f hf files)

/-- Witness for C7 at the excluded name `companies.test.ts`. -/
theorem c7_excluded_witness :
    ("companies.test.ts" ∈ fixed_files) ∧
    ("companies.test.ts" ∉ mainSelect ["companies.test.ts", "widgets.test.ts"] ∧
      runMain (fun _ => []) ["companies.test.ts", "widgets.test.ts"] "companies.test.ts" =
        (fun _ => ([] : Str)) "companies.test.ts") :=
  ⟨by decide,
    c7_excluded_files_untouched "companies.test.ts" (by decide) (fun _ => [])
      ["companies.test.ts", "widgets.test.ts"]⟩

/-- C8: if reading a selected file fails, the batch run returns that error
(the exception propagates, aborting the remainder), the failing file is
never written and retains its pre-run content, and so does every later
selected file — there is no per-file error isolation. -/
theorem c8_read_error_aborts (readErr : String → Option Nat) (st : String → Str)
    (files pre post : List String) (f : String) (e : Nat)
    (hsel : mainSelect files = pre ++ f :: post)
    (h1 : ∀ g ∈ pre, readErr g = none)
    (h2 : readErr f = some e)
    (h3 : f ∉ pre) :
    (runMainE readErr st files).2 = some e ∧
    (runMainE readErr st files).1 f = st f ∧
    ∀ g ∈ post, g ∉ pre → g ≠ f → (runMainE readErr st files).1 g = st g := by
  unfold runMainE
  rw [hsel]
  exact runFiles_abort readErr e f pre st post h1 h2 h3

/-- Witness for C8: three eligible files, the read of the second fails. -/
theorem c8_read_error_witness :
    (mainSelect ["a.test.ts", "b.test.ts", "c.test.ts"] =
      ["a.test.ts"] ++ "b.test.ts" :: ["c.test.ts"]) ∧
    (∀ g ∈ ["a.test.ts"],
      (fun h => if h = "b.test.ts" then some 7 else none : String → Option Nat) g = none) ∧
    ((fun h => if h = "b.test.ts" then some 7 else none : String → Option Nat) "b.test.ts" = some 7) ∧
    ("b.test.ts" ∉ ["a.test.ts"]) ∧
    ((runMainE (fun h => if h = "b.test.ts" then some 7 else none) (fun _ => [])
        ["a.test.ts", "b.test.ts", "c.test.ts"]).2 = some 7 ∧
      (runMainE (fun h => if h = "b.test.ts" then some 7 else none) (fun _ => [])
        ["a.test.ts", "b.test.ts", "c.test.ts"]).1 "b.test.ts" = (fun _ => ([] : Str)) "b.test.ts" ∧
      ∀ g ∈ ["c.test.ts"], g ∉ ["a.test.ts"] → g ≠ "b.test.ts" →
        (runMainE (fun h => if h = "b.test.ts" then some 7 else none) (fun _ => [])
          ["a.test.ts", "b.test.ts", "c.test.ts"]).1 g = (fun _ => ([] : Str)) g) :=
  ⟨by decide, by decide, by decide, by decide,
    c8_read_error_aborts (fun h => if h = "b.test.ts" then some 7 else none) (fun _ => [])
      ["a.test.ts", "b.test.ts", "c.test.ts"] ["a.test.ts"] ["c.test.ts"] "b.test.ts" 7
      (by decide) (by decide) (by decide) (by decide)⟩

/-- C9: a file whose content lacks the marker but contains the exact old
axios import line is rewritten, and the written content contains the
marker substring `createEntityTestSetup`: the Import Rewriter inserts the
helper block, and no later rewrite stage can alter any character of the
protected window around the marker (the entity name is assumed free of
closing braces, as regex metacharacters in it would change the source's
`await` pattern itself). Every subsequent run therefore skips the file. -/
theorem c9_marker_inserted (filepath content : Str)
    (hent : ∀ c ∈ pyLower (get_entity_name_from_file filepath), c ≠ Char.ofNat 125)
    (hm : containsStr markerStr content = false)
    (hax : containsStr oldAxiosLit content = true) :
    ∃ c', process_file filepath content = some c' ∧ containsStr markerStr c' = true := by
  have hhm1 : hasMatch impPat1 content = true := by
    obtain ⟨u, v, rfl⟩ := containsStr_decomp _ _ hax
    exact hasMatch_append_of_fires _ u _ (fires_lit_self _ v (by decide))
  obtain ⟨u1, caps1, v1, hstep1, _⟩ :=
    sub_emits impPat1 impRepl1 content content.length le_rfl hhm1
  have hrepl1 : applyRepl impRepl1 caps1 = newAxiosLit := by
    simp [applyRepl, rtokVal, impRepl1]
  have hhm2 : hasMatch impPat2 (sub impPat1 impRepl1 content) = true := by
    unfold sub
    rw [hstep1, hrepl1]
    exact hasMatch_append_of_fires _ u1 _ (fires_glit_self _ v1 (by decide))
  obtain ⟨u2, caps2, v2, hstep2, t0, m0, htf0⟩ :=
    sub_emits impPat2 impRepl2 (sub impPat1 impRepl1 content)
      (sub impPat1 impRepl1 content).length le_rfl hhm2
  have hcaps2 : caps2 = [newAxiosLit] := tryFrom_glit_caps _ _ _ _ htf0
  have hrepl2 : applyRepl impRepl2 caps2 = newAxiosLit ++ ('\n' :: insertionBlock) := by
    rw [hcaps2]
    simp [applyRepl, rtokVal, impRepl2]
  have hkey : newAxiosLit ++ ('\n' :: insertionBlock) = importHead ++ vWindow := by decide
  have hfix : fix_imports content = (u2 ++ importHead) ++ (vWindow ++ v2) := by
    rw [fix_imports]
    conv_lhs => rw [sub]
    rw [hstep2, hrepl2, hkey, List.append_assoc importHead vWindow v2,
      ← List.append_assoc u2 importHead (vWindow ++ v2)]
  have step : ∀ (P : Pat) (R : Repl), noTouchB P vWindow = true →
      ∀ t : Str, (∃ x y, t = x ++ (vWindow ++ y)) →
      ∃ x y, sub P R t = x ++ (vWindow ++ y) := by
    rintro P R hnt t ⟨x, y, rfl⟩
    exact sub_protect P R x vWindow y
      (fun q n caps => checker_no_fire_touch P vWindow hnt x y q n caps)
  have stepAwait : ∀ (R : Repl) (t : Str), (∃ x y, t = x ++ (vWindow ++ y)) →
      ∃ x y, sub (awaitPat (pyLower (get_entity_name_from_file filepath))) R t =
        x ++ (vWindow ++ y) := by
    rintro R t ⟨x, y, rfl⟩
    exact sub_protect _ R x vWindow y
      (fun q n caps => await_no_fire_touch _ hent x y q n caps)
  have h0 : ∃ x y, fix_imports content = x ++ (vWindow ++ y) :=
    ⟨u2 ++ importHead, v2, hfix⟩
  have hshape : ∃ x y, rewritePipeline filepath content = x ++ (vWindow ++ y) := by
    rw [rewritePipeline]
    simp only [fix_method_calls, fix_mock_responses, fix_test_expectations]
    refine step braceClosePat _ (by decide) _ ?_
    refine step paramsFilterPat _ (by decide) _ ?_
    refine step expectQueryPat _ (by decide) _ ?_
    refine step mockDeletePat _ (by decide) _ ?_
    refine step mockPatchPat _ (by decide) _ ?_
    refine step mockPutPat _ (by decide) _ ?_
    refine step mockCreatePat _ (by decide) _ ?_
    refine step mockSinglePat _ (by decide) _ ?_
    refine step mockEmptyPat _ (by decide) _ ?_
    refine step mockListPat _ (by decide) _ ?_
    refine step pageSizePat _ (by decide) _ ?_
    refine step expectMockAxiosPat _ (by decide) _ ?_
    refine step mockAxiosPat _ (by decide) _ ?_
    exact stepAwait _ _ h0
  obtain ⟨xf, yf, hplf⟩ := hshape
  refine ⟨rewritePipeline filepath content, ?_, ?_⟩
  · unfold process_file
    simp [hm]
  · rw [hplf]
    exact containsStr_within markerStr vWindow (by decide) xf yf

/-- Witness for C9: the file whose content is exactly the old axios
line being imported. -/
theorem c9_marker_inserted_witness :
    (∀ c ∈ pyLower (get_entity_name_from_file (S "widgets.test.ts")), c ≠ Char.ofNat 125) ∧
    containsStr markerStr oldAxiosLit = false ∧
    containsStr oldAxiosLit oldAxiosLit = true ∧
    ∃ c', process_file (S "widgets.test.ts") oldAxiosLit = some c' ∧
      containsStr markerStr c' = true :=
  ⟨by decide, by decide, by decide,
    c9_marker_inserted (S "widgets.test.ts") oldAxiosLit (by decide) (by decide) (by decide)⟩

/-- C10: `fix_describe_setup` returns its content argument unchanged for
every content and entity class, and composing it into the pipeline is
invisible: `process_file` (which never invokes it) gives the same result
on `fix_describe_setup content e` as on `content`, so the
describe/beforeEach/afterEach setup block of a test file is never
rewritten. -/
theorem c10_fix_describe_setup_identity (content entity_class : Str) :
    fix_describe_setup content entity_class = content ∧
      ∀ filepath : Str,
        process_file filepath (fix_describe_setup content entity_class) =
          process_file filepath content :=
  ⟨rfl, fun _ => rfl⟩

end Fixts
